import Mathlib

/-!
Verification of the streaming-adapter core of a multi-provider LLM chat
client.  The development shallowly embeds the three provider adapters
(`sendStreamingMessage` of the OpenAI-compatible adapter, the Anthropic
adapter and the Gemini adapter) as pure functions from a session input
(HTTP outcome, decoded SSE lines grouped by transport chunk, and a
termination mode) to the ordered list of callback events the adapter
fires.  JSON parsing is abstracted: each `data:` line is represented by
its parse outcome (a structured frame, or a parse failure).  JavaScript
string truthiness is modelled by using `""` for an absent/empty field,
which is observationally identical in every guard of the source.
-/

/-- A callback invocation of an adapter.  `reasoningDelta d acc` is
`onReasoningChunk(d, acc)`, `contentDelta d acc` is `onChunk(d, acc)`,
`completion t` is `onComplete(t)` and `error m` is `onError(new Error(m))`. -/
inductive Event where
  | reasoningDelta (delta acc : String)
  | reasoningComplete
  | contentDelta (delta acc : String)
  | completion (finalText : String)
  | error (msg : String)
deriving DecidableEq, Repr

/-- Is the event a `ReasoningDelta`? -/
def Event.isReasoningDelta : Event → Bool
  | .reasoningDelta _ _ => true
  | _ => false

/-- Is the event the `ReasoningComplete` marker? -/
def Event.isReasoningComplete : Event → Bool
  | .reasoningComplete => true
  | _ => false

/-- Is the event a `ContentDelta`? -/
def Event.isContentDelta : Event → Bool
  | .contentDelta _ _ => true
  | _ => false

/-- Is the event a `Completion`? -/
def Event.isCompletion : Event → Bool
  | .completion _ => true
  | _ => false

/-- Is the event an `Error`? -/
def Event.isError : Event → Bool
  | .error _ => true
  | _ => false

/-- Terminal callbacks: `onComplete` or `onError`. -/
def Event.isTerminal (e : Event) : Bool :=
  e.isCompletion || e.isError

/-- How the transport read loop of a session ends, after the given list
of chunks has been consumed:
* `normal` — the next `reader.read()` reports `done`;
* `flagAbort` — the `abortSignal.aborted` flag is observed at one of the
  two per-iteration checks, so the loop exits via `break`;
* `abortError` — the next suspension point throws `AbortError`
  (cancellation surfacing as an exception), handled by the adapter's
  `catch` block;
* `netError name msg` — the next suspension point throws some other
  error with the given `error.name` and `error.message` (this also
  covers errors thrown before or during `fetch`, with an empty chunk
  list). -/
inductive TermMode where
  | normal
  | flagAbort
  | abortError
  | netError (name msg : String)
deriving DecidableEq, Repr

/-- A non-2xx HTTP response: status, status text, the optional
`retry-after` header and the optional `errorData.error?.message` from
the JSON body. -/
structure HttpFailure where
  status : Nat
  statusText : String
  retryAfter : Option String
  errMsg : Option String
deriving DecidableEq, Repr

/-- The status-dependent error message built by every adapter for a
non-2xx response (the branch cascade is identical, string for string,
in all three adapters). -/
def httpErrorMessage (f : HttpFailure) : String :=
  if f.status = 429 then
    match f.retryAfter with
    | some ra => "Rate limit exceeded. Please wait " ++ ra ++ " seconds."
    | none => "Rate limit exceeded."
  else if f.status = 401 then
    f.errMsg.getD "Invalid API key or unauthorized access."
  else if f.status = 403 then
    f.errMsg.getD "Access forbidden. Check your API key permissions."
  else if f.status = 404 then
    f.errMsg.getD "Model or endpoint not found."
  else if 500 ≤ f.status then
    f.errMsg.getD ("Server error (" ++ toString f.status ++ "). Please try again later.")
  else
    f.errMsg.getD ("HTTP " ++ toString f.status ++ ": " ++ f.statusText)

/-- `pat.isPrefixOf`-based substring test modelling JavaScript's
`String.prototype.includes`. -/
def charsInclude (pat : List Char) : List Char → Bool
  | [] => decide (pat = [])
  | c :: rest => pat.isPrefixOf (c :: rest) || charsInclude pat rest

/-- `msg.includes(pat)` on strings. -/
def strIncludes (msg pat : String) : Bool :=
  charsInclude pat.toList msg.toList

/-- The generic-catch error-message categorization shared (up to the
provider name in the fixed strings) by the adapters:
`TypeError` mentioning `fetch` becomes the network message, a
`SyntaxError` becomes the invalid-response message, an empty message
becomes the generic fallback, anything else passes through. -/
def categorizeError (networkMsg invalidMsg : String) (name msg : String) : String :=
  if name = "TypeError" ∧ strIncludes msg "fetch" then networkMsg
  else if name = "SyntaxError" then invalidMsg
  else if msg = "" then "An unexpected error occurred. Please try again."
  else msg

/-- Mutable accumulation state shared by the adapters' read loops:
`fullContent`, `fullReasoning` and the `reasoningDone` flag.
(The `completeCalled` flag of the source is represented by the fact that
each adapter's run function emits `completion` at exactly one program
point per control path; the try-tail and the abort-catch are mutually
exclusive, so the guard never observably fires twice.) -/
structure AccState where
  content : String
  reasoning : String
  reasoningDone : Bool
deriving DecidableEq, Repr

/-- Initial accumulation state. -/
def accInit : AccState := ⟨"", "", false⟩

/-! ## OpenAI-compatible adapter (`sendStreamingMessage`)

Frames are represented by every field the delta-processing body of the
adapter reads: the extracted reasoning text (`delta.reasoning`, or the
joined `reasoning.text` entries of `delta.reasoning_details`),
`delta.content` (absent, a string, or an array of content parts — an
array is truthy in JS even when empty, which matters for the guards),
the `delta.images` and `choices[0].message.images` arrays, and
`choices[0].finish_reason`.  For plain string fields `""` encodes an
absent field (JS falsy); for the image arrays `[]` covers both an
absent and an empty array (the loop bodies run zero times either way).
The `tool_calls`/`function_call` check is a no-op in the source. -/

/-- One element of an array-valued `delta.content`: the fields the
image-part branch reads (`part.type === 'image_url'` and
`part.image_url?.url`, with `""` for an absent url). -/
structure OPart where
  isImageUrl : Bool
  url : String
deriving DecidableEq, Repr

/-- One element of `delta.images` / `message.images`:
`image.image_url?.url` and the fallback `image.url` (the code resolves
`image.image_url?.url || image.url`). -/
structure OImage where
  imageUrl : String
  url : String
deriving DecidableEq, Repr

/-- `delta.content`: absent, a string, or an array of parts. -/
inductive OContent where
  | absent
  | text (s : String)
  | parts (ps : List OPart)
deriving DecidableEq, Repr

/-- JS truthiness of `delta.content`: a string is truthy iff non-empty;
an array is always truthy (even `[]`). -/
def OContent.truthy : OContent → Bool
  | .absent => false
  | .text s => decide (s ≠ "")
  | .parts _ => true

/-- JS string coercion of a `[object Object]` array, as produced by
`Array.prototype.toString` (elements joined by `,`). -/
def arrayCoerce : List OPart → String
  | [] => ""
  | [_] => "[object Object]"
  | _ :: p :: ps => "[object Object]," ++ arrayCoerce (p :: ps)

/-- The string appended by `fullContent += delta.content` (for an
array, the JS coercion; the matching `onChunk` receives the raw array
in the source — the event carries its coercion). -/
def OContent.coerced : OContent → String
  | .absent => ""
  | .text s => s
  | .parts ps => arrayCoerce ps

structure OFrame where
  reasoning : String
  content : OContent
  images : List OImage
  messageImages : List OImage
  finish : String
deriving DecidableEq, Repr

/-- One trimmed line of the OpenAI-compatible stream, by the adapter's
classification: empty line, SSE comment (`:`-line), a non-`data:` line,
the `data: [DONE]` sentinel, a `data:` line whose payload fails
`JSON.parse`, or a parsed frame. -/
inductive OLine where
  | blank
  | comment
  | other
  | done
  | malformed
  | frame (f : OFrame)
deriving DecidableEq, Repr

/-- The `for (const part of delta.content)` loop of the
`Array.isArray(delta?.content)` branch: each `image_url` part with a
truthy url appends its markdown marker to the content and fires
`onChunk`. -/
def contentPartsLoop (content : String) : List OPart → String × List Event
  | [] => (content, [])
  | p :: ps =>
    if p.isImageUrl ∧ p.url ≠ "" then
      let md := "\n![Generated Image](" ++ p.url ++ ")\n"
      let r := contentPartsLoop (content ++ md) ps
      (r.1, Event.contentDelta md (content ++ md) :: r.2)
    else contentPartsLoop content ps

/-- The `for (const image of ...)` loops over `delta.images` and
`message.images`: each image with a truthy resolved url
(`image.image_url?.url || image.url`) appends its
`[GENERATED_IMAGE:...:END_IMAGE]` marker to the content and fires
`onChunk`. -/
def imagesLoop (content : String) : List OImage → String × List Event
  | [] => (content, [])
  | im :: ims =>
    let u := if im.imageUrl ≠ "" then im.imageUrl else im.url
    if u ≠ "" then
      let mk := "\n[GENERATED_IMAGE:" ++ u ++ ":END_IMAGE]\n"
      let r := imagesLoop (content ++ mk) ims
      (r.1, Event.contentDelta mk (content ++ mk) :: r.2)
    else imagesLoop content ims

/-- The three image-emitting branches of the frame body, in source
order: image parts of an array-valued `delta.content`, then
`delta.images`, then `message.images`.  They read and write only
`fullContent`. -/
def oFrameImages (st : AccState) (f : OFrame) : AccState × List Event :=
  -- if (Array.isArray(delta?.content)) { ... }
  let s4 : AccState × List Event :=
    match f.content with
    | OContent.parts ps =>
      let r := contentPartsLoop st.content ps
      ({ st with content := r.1 }, r.2)
    | _ => (st, [])
  -- if (delta?.images && Array.isArray(delta.images)) { ... }
  let s5 : AccState × List Event :=
    let r := imagesLoop s4.1.content f.images
    ({ s4.1 with content := r.1 }, s4.2 ++ r.2)
  -- if (message?.images && Array.isArray(message.images)) { ... }
  let r6 := imagesLoop s5.1.content f.messageImages
  ({ s5.1 with content := r6.1 }, s5.2 ++ r6.2)

/-- Processing of one parsed frame by the OpenAI-compatible adapter
(`hrc` = an `onReasoningChunk` callback was supplied, `hrd` = an
`onReasoningComplete` callback was supplied).  Returns the new state,
the events fired, and whether the `finish_reason` check breaks out of
the current chunk's line loop. -/
def oFrameStep (hrc hrd : Bool) (st : AccState) (f : OFrame) :
    AccState × List Event × Bool :=
  -- if (reasoningText && onReasoningChunk)
  let s1 : AccState × List Event :=
    if f.reasoning ≠ "" ∧ hrc then
      ⟨{ st with reasoning := st.reasoning ++ f.reasoning },
        [Event.reasoningDelta f.reasoning (st.reasoning ++ f.reasoning)]⟩
    else ⟨st, []⟩
  -- if (delta?.content && fullReasoning && !reasoningDone && onReasoningComplete)
  let s2 : AccState × List Event :=
    if f.content.truthy ∧ s1.1.reasoning ≠ "" ∧ ¬s1.1.reasoningDone ∧ hrd then
      ⟨{ s1.1 with reasoningDone := true }, s1.2 ++ [Event.reasoningComplete]⟩
    else s1
  -- if (delta?.content) { fullContent += delta.content; onChunk(...) }
  let s3 : AccState × List Event :=
    if f.content.truthy then
      ⟨{ s2.1 with content := s2.1.content ++ f.content.coerced },
        s2.2 ++ [Event.contentDelta f.content.coerced (s2.1.content ++ f.content.coerced)]⟩
    else s2
  -- image-emitting branches, then the finish_reason check
  let s6 := oFrameImages s3.1 f
  ⟨s6.1, s3.2 ++ s6.2, f.finish ≠ ""⟩

/-- Every event of the `image_url`-parts loop is a `ContentDelta`. -/
theorem contentPartsLoop_events (ps : List OPart) :
    ∀ cont, ∀ e ∈ (contentPartsLoop cont ps).2, e.isContentDelta = true := by
  induction ps with
  | nil => simp [contentPartsLoop]
  | cons p ps ih =>
    intro cont e he
    simp only [contentPartsLoop] at he
    split at he
    · rcases List.mem_cons.1 he with rfl | hm
      · rfl
      · exact ih _ e hm
    · exact ih _ e he

/-- Every event of the `delta.images`/`message.images` loops is a
`ContentDelta`. -/
theorem imagesLoop_events (ims : List OImage) :
    ∀ cont, ∀ e ∈ (imagesLoop cont ims).2, e.isContentDelta = true := by
  induction ims with
  | nil => simp [imagesLoop]
  | cons im ims ih =>
    intro cont e he
    simp only [imagesLoop] at he
    (repeat' split at he) <;>
      (try rcases List.mem_cons.1 he with rfl | he) <;>
      first
        | rfl
        | exact ih _ e he

/-- Every event of the image-emitting branches is a `ContentDelta`. -/
theorem oFrameImages_events (st : AccState) (f : OFrame) :
    ∀ e ∈ (oFrameImages st f).2, e.isContentDelta = true := by
  intro e he
  simp only [oFrameImages] at he
  rcases List.mem_append.1 he with hm | hm
  · rcases List.mem_append.1 hm with hm2 | hm2
    · split at hm2
      · exact contentPartsLoop_events _ _ e hm2
      · cases hm2
    · exact imagesLoop_events _ _ e hm2
  · exact imagesLoop_events _ _ e hm

/-- The image-emitting branches touch only the content accumulator. -/
theorem oFrameImages_state (st : AccState) (f : OFrame) :
    (oFrameImages st f).1.reasoning = st.reasoning
    ∧ (oFrameImages st f).1.reasoningDone = st.reasoningDone := by
  simp only [oFrameImages]
  split <;> simp

/-- A frame with no array content and no image arrays leaves the image
branches silent. -/
theorem oFrameImages_silent (st : AccState) (f : OFrame)
    (h4 : ∀ ps, f.content ≠ OContent.parts ps)
    (h5 : f.images = []) (h6 : f.messageImages = []) :
    oFrameImages st f = (st, []) := by
  cases hcon : f.content with
  | parts ps => exact absurd hcon (h4 ps)
  | absent => simp [oFrameImages, h5, h6, hcon, imagesLoop]
  | text s => simp [oFrameImages, h5, h6, hcon, imagesLoop]

/-- Processing of one line: blank lines, comments, non-`data:` lines,
the `[DONE]` sentinel (`continue`) and unparsable payloads (`catch` and
log) all fall through without events. -/
def oLineStep (hrc hrd : Bool) (st : AccState) : OLine → AccState × List Event × Bool
  | .frame f => oFrameStep hrc hrd st f
  | _ => ⟨st, [], false⟩

/-- The `for (const line of lines)` loop over one chunk's complete
lines; a truthy `finish_reason` breaks out of the remaining lines of
this chunk only. -/
def oLines (hrc hrd : Bool) (st : AccState) : List OLine → AccState × List Event
  | [] => ⟨st, []⟩
  | l :: ls =>
    let r := oLineStep hrc hrd st l
    if r.2.2 then ⟨r.1, r.2.1⟩
    else
      let rest := oLines hrc hrd r.1 ls
      ⟨rest.1, r.2.1 ++ rest.2⟩

/-- The `while (true)` read loop over the chunks consumed before the
session terminates. -/
def oChunks (hrc hrd : Bool) (st : AccState) : List (List OLine) → AccState × List Event
  | [] => ⟨st, []⟩
  | c :: cs =>
    let r := oLines hrc hrd st c
    let rest := oChunks hrc hrd r.1 cs
    ⟨rest.1, r.2 ++ rest.2⟩

/-- Events fired after the read loop ends, per termination mode:
the try-tail (reasoning finalization + guarded `onComplete`) for a
normal end or an observed abort flag, the `AbortError` catch with its
synthesized reasoning pair, or the generic error catch. -/
def oFinal (hrc hrd : Bool) (st : AccState) : TermMode → List Event
  | .normal | .flagAbort =>
    (if st.reasoning ≠ "" ∧ ¬st.reasoningDone ∧ hrd then [Event.reasoningComplete] else [])
      ++ [Event.completion st.content]
  | .abortError =>
    (if st.reasoning ≠ "" ∧ ¬st.reasoningDone then
      (if hrc then [Event.reasoningDelta "" st.reasoning] else [])
        ++ (if hrd then [Event.reasoningComplete] else [])
     else [])
      ++ [Event.completion st.content]
  | .netError name msg =>
    [Event.error (categorizeError
      "Network error: Unable to connect to the API. Please check your internet connection."
      "Invalid response from API. Please try again." name msg)]

/-- A whole 2xx streaming session of the OpenAI-compatible adapter. -/
def oRun (hrc hrd : Bool) (chunks : List (List OLine)) (m : TermMode) : List Event :=
  let r := oChunks hrc hrd accInit chunks
  r.2 ++ oFinal hrc hrd r.1 m

/-- The OpenAI-compatible `sendStreamingMessage`, from the HTTP response
on: a non-2xx response fires `onError` with the status-derived message
and returns; a 2xx response runs the streaming session. -/
def sendStreamingMessageOpenAI (hrc hrd : Bool) :
    Option HttpFailure → List (List OLine) → TermMode → List Event
  | some f, _, _ => [Event.error (httpErrorMessage f)]
  | none, chunks, m => oRun hrc hrd chunks m

/-! ## Gemini adapter (`sendStreamingMessage`)

A frame is `candidates[0].content.parts` (the empty list models a frame
with no candidates or no parts — observationally identical, as every
read of the frame is inside the candidates guard), the candidate's
`finishReason` (only logged when not `STOP`; never affects control
flow), and `parsed.error`.  Note on `parsed.error`: the source throws
`new Error(parsed.error.message || 'Unknown error from Gemini')`, but
that statement sits inside the same `try` whose
`catch (parseError)` only logs, so the throw is swallowed and the
session continues; the embedding therefore fires no event for it. -/

structure GPart where
  thought : String
  text : String
deriving DecidableEq, Repr

structure GFrame where
  parts : List GPart
  finishReason : String
  errorMsg : Option String
deriving DecidableEq, Repr

/-- A trimmed line of the Gemini stream (Gemini skips blank lines; any
line not starting with `data: ` is ignored; there is no `[DONE]`
sentinel — such a payload would simply fail `JSON.parse`). -/
inductive GLine where
  | blank
  | other
  | malformed
  | frame (f : GFrame)
deriving DecidableEq, Repr

/-- Processing of one candidate part: a truthy `thought` with a
supplied `onReasoningChunk` goes to the reasoning channel; otherwise a
truthy `text` closes pending reasoning and is appended to the content. -/
def gPartStep (hrc hrd : Bool) (st : AccState) (p : GPart) : AccState × List Event :=
  if p.thought ≠ "" ∧ hrc then
    ⟨{ st with reasoning := st.reasoning ++ p.thought },
      [Event.reasoningDelta p.thought (st.reasoning ++ p.thought)]⟩
  else if p.text ≠ "" then
    let s2 : AccState × List Event :=
      if st.reasoning ≠ "" ∧ ¬st.reasoningDone ∧ hrd then
        ⟨{ st with reasoningDone := true }, [Event.reasoningComplete]⟩
      else ⟨st, []⟩
    ⟨{ s2.1 with content := s2.1.content ++ p.text },
      s2.2 ++ [Event.contentDelta p.text (s2.1.content ++ p.text)]⟩
  else ⟨st, []⟩

/-- `for (const part of content.parts)`. -/
def gParts (hrc hrd : Bool) (st : AccState) : List GPart → AccState × List Event
  | [] => ⟨st, []⟩
  | p :: ps =>
    let r := gPartStep hrc hrd st p
    let rest := gParts hrc hrd r.1 ps
    ⟨rest.1, r.2 ++ rest.2⟩

/-- Processing of one line: a parsed frame processes its parts; the
`finishReason` check only logs, and a present `error` field is thrown
and immediately swallowed by the enclosing parse `catch` (see above),
so neither fires an event nor stops the session. -/
def gLineStep (hrc hrd : Bool) (st : AccState) : GLine → AccState × List Event
  | .frame f => gParts hrc hrd st f.parts
  | _ => ⟨st, []⟩

/-- The line loop over one chunk (no `break` exists in this adapter). -/
def gLines (hrc hrd : Bool) (st : AccState) : List GLine → AccState × List Event
  | [] => ⟨st, []⟩
  | l :: ls =>
    let r := gLineStep hrc hrd st l
    let rest := gLines hrc hrd r.1 ls
    ⟨rest.1, r.2 ++ rest.2⟩

/-- The read loop over the consumed chunks. -/
def gChunks (hrc hrd : Bool) (st : AccState) : List (List GLine) → AccState × List Event
  | [] => ⟨st, []⟩
  | c :: cs =>
    let r := gLines hrc hrd st c
    let rest := gChunks hrc hrd r.1 cs
    ⟨rest.1, r.2 ++ rest.2⟩

/-- Post-loop events of the Gemini adapter (same structure as the
OpenAI-compatible adapter, with Gemini's fixed error strings). -/
def gFinal (hrc hrd : Bool) (st : AccState) : TermMode → List Event
  | .normal | .flagAbort =>
    (if st.reasoning ≠ "" ∧ ¬st.reasoningDone ∧ hrd then [Event.reasoningComplete] else [])
      ++ [Event.completion st.content]
  | .abortError =>
    (if st.reasoning ≠ "" ∧ ¬st.reasoningDone then
      (if hrc then [Event.reasoningDelta "" st.reasoning] else [])
        ++ (if hrd then [Event.reasoningComplete] else [])
     else [])
      ++ [Event.completion st.content]
  | .netError name msg =>
    [Event.error (categorizeError
      "Network error: Unable to connect to Gemini API. Please check your internet connection."
      "Invalid response from Gemini API. Please try again." name msg)]

/-- A whole 2xx streaming session of the Gemini adapter. -/
def gRun (hrc hrd : Bool) (chunks : List (List GLine)) (m : TermMode) : List Event :=
  let r := gChunks hrc hrd accInit chunks
  r.2 ++ gFinal hrc hrd r.1 m

/-- The Gemini `sendStreamingMessage`, from the HTTP response on. -/
def sendStreamingMessageGemini (hrc hrd : Bool) :
    Option HttpFailure → List (List GLine) → TermMode → List Event
  | some f, _, _ => [Event.error (httpErrorMessage f)]
  | none, chunks, m => gRun hrc hrd chunks m

/-! ## Anthropic adapter (`sendStreamingMessage`)

Frames are the event objects of the Anthropic SSE protocol, by their
`type` tag; only the fields the adapter reads are carried
(`content_block?.type` for `content_block_start`, `delta?.type` and
`delta.text` for `content_block_delta`, `error?.message` for `error`,
each with `""` encoding an absent field). -/

inductive AFrame where
  | messageStart
  | blockStart (blockType : String)
  | blockDelta (deltaType text : String)
  | blockStop
  | messageDelta
  | messageStop
  | ping
  | errorFrame (msg : String)
  | unknown
deriving DecidableEq, Repr

/-- A trimmed line of the Anthropic stream; `event: ` lines are
explicitly skipped by the adapter. -/
inductive ALine where
  | blank
  | comment
  | eventLine
  | other
  | malformed
  | frame (f : AFrame)
deriving DecidableEq, Repr

/-- Anthropic session state: the shared accumulators plus the
`currentBlockType` tracker (`""` = `null`). -/
structure AnthState where
  content : String
  reasoning : String
  reasoningDone : Bool
  blockType : String
deriving DecidableEq, Repr

/-- Initial Anthropic state. -/
def aInit : AnthState := ⟨"", "", false, ""⟩

/-- Processing of one parsed Anthropic frame.  The returned `Bool` is
whether the session ended (`return` inside the `error` case — no later
line, chunk, or finalization runs). -/
def aFrameStep (hrc hrd : Bool) (st : AnthState) : AFrame → AnthState × List Event × Bool
  | .blockStart t => ⟨{ st with blockType := t }, [], false⟩
  | .blockDelta dt text =>
    if dt = "text_delta" ∧ text ≠ "" then
      if st.blockType = "thinking" ∧ hrc then
        ⟨{ st with reasoning := st.reasoning ++ text },
          [Event.reasoningDelta text (st.reasoning ++ text)], false⟩
      else
        let s2 : AnthState × List Event :=
          if st.reasoning ≠ "" ∧ ¬st.reasoningDone ∧ hrd then
            ⟨{ st with reasoningDone := true }, [Event.reasoningComplete]⟩
          else ⟨st, []⟩
        ⟨{ s2.1 with content := s2.1.content ++ text },
          s2.2 ++ [Event.contentDelta text (s2.1.content ++ text)], false⟩
    else ⟨st, [], false⟩
  | .blockStop =>
    let s2 : AnthState × List Event :=
      if st.blockType = "thinking" ∧ st.reasoning ≠ "" ∧ ¬st.reasoningDone ∧ hrd then
        ⟨{ st with reasoningDone := true }, [Event.reasoningComplete]⟩
      else ⟨st, []⟩
    ⟨{ s2.1 with blockType := "" }, s2.2, false⟩
  | .errorFrame m =>
    ⟨st, [Event.error (if m = "" then "Unknown error from Claude API" else m)], true⟩
  | _ => ⟨st, [], false⟩

/-- Processing of one line (non-frame lines are skipped or logged). -/
def aLineStep (hrc hrd : Bool) (st : AnthState) : ALine → AnthState × List Event × Bool
  | .frame f => aFrameStep hrc hrd st f
  | _ => ⟨st, [], false⟩

/-- Line loop over one chunk; an in-band error ends the session. -/
def aLines (hrc hrd : Bool) (st : AnthState) : List ALine → AnthState × List Event × Bool
  | [] => ⟨st, [], false⟩
  | l :: ls =>
    let r := aLineStep hrc hrd st l
    if r.2.2 then ⟨r.1, r.2.1, true⟩
    else
      let rest := aLines hrc hrd r.1 ls
      ⟨rest.1, r.2.1 ++ rest.2.1, rest.2.2⟩

/-- Read loop over the consumed chunks, stopping if a chunk ended the
session. -/
def aChunks (hrc hrd : Bool) (st : AnthState) : List (List ALine) → AnthState × List Event × Bool
  | [] => ⟨st, [], false⟩
  | c :: cs =>
    let r := aLines hrc hrd st c
    if r.2.2 then ⟨r.1, r.2.1, true⟩
    else
      let rest := aChunks hrc hrd r.1 cs
      ⟨rest.1, r.2.1 ++ rest.2.1, rest.2.2⟩

/-- Post-loop events of the Anthropic adapter (structure identical to
the other adapters, with Anthropic's fixed error strings). -/
def aFinal (hrc hrd : Bool) (st : AnthState) : TermMode → List Event
  | .normal | .flagAbort =>
    (if st.reasoning ≠ "" ∧ ¬st.reasoningDone ∧ hrd then [Event.reasoningComplete] else [])
      ++ [Event.completion st.content]
  | .abortError =>
    (if st.reasoning ≠ "" ∧ ¬st.reasoningDone then
      (if hrc then [Event.reasoningDelta "" st.reasoning] else [])
        ++ (if hrd then [Event.reasoningComplete] else [])
     else [])
      ++ [Event.completion st.content]
  | .netError name msg =>
    [Event.error (categorizeError
      "Network error: Unable to connect to the Anthropic API. Please check your internet connection."
      "Invalid response from Anthropic API. Please try again." name msg)]

/-- A whole 2xx streaming session of the Anthropic adapter; if an
in-band `error` frame ended the session, nothing after it runs. -/
def aRun (hrc hrd : Bool) (chunks : List (List ALine)) (m : TermMode) : List Event :=
  let r := aChunks hrc hrd aInit chunks
  if r.2.2 then r.2.1 else r.2.1 ++ aFinal hrc hrd r.1 m

/-- The Anthropic `sendStreamingMessage`, from the HTTP response on. -/
def sendStreamingMessageAnthropic (hrc hrd : Bool) :
    Option HttpFailure → List (List ALine) → TermMode → List Event
  | some f, _, _ => [Event.error (httpErrorMessage f)]
  | none, chunks, m => aRun hrc hrd chunks m

/-! ## Terminal-callback lemmas

All events fired while processing lines/chunks are deltas or the
reasoning-complete marker — the only terminal emissions happen after
the read loop (`oFinal`/`gFinal`/`aFinal`) or, for Anthropic, at the
session-ending in-band `error` frame. -/

theorem event_isCompletion_isTerminal {e : Event} (h : e.isCompletion = true) :
    e.isTerminal = true := by
  cases e <;> simp_all [Event.isCompletion, Event.isTerminal]

theorem oFrameStep_not_terminal (hrc hrd : Bool) (st : AccState) (f : OFrame) :
    ∀ e ∈ (oFrameStep hrc hrd st f).2.1, e.isTerminal = false := by
  intro e he
  simp only [oFrameStep] at he
  rcases List.mem_append.1 he with hm | hm
  · (repeat' split at hm) <;> cases e <;>
      simp_all [Event.isTerminal, Event.isCompletion, Event.isError]
  · have hcd := oFrameImages_events _ _ e hm
    cases e <;> simp_all [Event.isContentDelta, Event.isTerminal,
      Event.isCompletion, Event.isError]

theorem oLineStep_not_terminal (hrc hrd : Bool) (st : AccState) (l : OLine) :
    ∀ e ∈ (oLineStep hrc hrd st l).2.1, e.isTerminal = false := by
  cases l <;> simp only [oLineStep] <;> first
    | exact oFrameStep_not_terminal hrc hrd st _
    | simp

theorem oLines_not_terminal (hrc hrd : Bool) (ls : List OLine) :
    ∀ st, ∀ e ∈ (oLines hrc hrd st ls).2, e.isTerminal = false := by
  induction ls with
  | nil => simp [oLines]
  | cons l ls ih =>
    intro st
    simp only [oLines]
    split
    · exact oLineStep_not_terminal hrc hrd st l
    · intro e he
      rcases List.mem_append.1 he with h | h
      · exact oLineStep_not_terminal hrc hrd st l e h
      · exact ih _ e h

theorem oChunks_not_terminal (hrc hrd : Bool) (cs : List (List OLine)) :
    ∀ st, ∀ e ∈ (oChunks hrc hrd st cs).2, e.isTerminal = false := by
  induction cs with
  | nil => simp [oChunks]
  | cons c cs ih =>
    intro st e he
    simp only [oChunks] at he
    rcases List.mem_append.1 he with h | h
    · exact oLines_not_terminal hrc hrd c st e h
    · exact ih _ e h

theorem oFinal_terminal_once (hrc hrd : Bool) (st : AccState) (m : TermMode) :
    (oFinal hrc hrd st m).countP Event.isTerminal = 1 := by
  cases m <;>
    simp only [oFinal] <;>
    (repeat' split) <;>
    simp [List.countP_append, List.countP_cons, Event.isTerminal,
      Event.isCompletion, Event.isError]

theorem gPartStep_not_terminal (hrc hrd : Bool) (st : AccState) (p : GPart) :
    ∀ e ∈ (gPartStep hrc hrd st p).2, e.isTerminal = false := by
  simp only [gPartStep]
  split
  · simp [Event.isTerminal, Event.isCompletion, Event.isError]
  · split
    · split <;>
        simp_all [Event.isTerminal, Event.isCompletion, Event.isError]
    · simp

theorem gParts_not_terminal (hrc hrd : Bool) (ps : List GPart) :
    ∀ st, ∀ e ∈ (gParts hrc hrd st ps).2, e.isTerminal = false := by
  induction ps with
  | nil => simp [gParts]
  | cons p ps ih =>
    intro st e he
    simp only [gParts] at he
    rcases List.mem_append.1 he with h | h
    · exact gPartStep_not_terminal hrc hrd st p e h
    · exact ih _ e h

theorem gLineStep_not_terminal (hrc hrd : Bool) (st : AccState) (l : GLine) :
    ∀ e ∈ (gLineStep hrc hrd st l).2, e.isTerminal = false := by
  cases l <;> simp only [gLineStep] <;> first
    | exact gParts_not_terminal hrc hrd _ st
    | simp

theorem gLines_not_terminal (hrc hrd : Bool) (ls : List GLine) :
    ∀ st, ∀ e ∈ (gLines hrc hrd st ls).2, e.isTerminal = false := by
  induction ls with
  | nil => simp [gLines]
  | cons l ls ih =>
    intro st e he
    simp only [gLines] at he
    rcases List.mem_append.1 he with h | h
    · exact gLineStep_not_terminal hrc hrd st l e h
    · exact ih _ e h

theorem gChunks_not_terminal (hrc hrd : Bool) (cs : List (List GLine)) :
    ∀ st, ∀ e ∈ (gChunks hrc hrd st cs).2, e.isTerminal = false := by
  induction cs with
  | nil => simp [gChunks]
  | cons c cs ih =>
    intro st e he
    simp only [gChunks] at he
    rcases List.mem_append.1 he with h | h
    · exact gLines_not_terminal hrc hrd c st e h
    · exact ih _ e h

theorem gFinal_terminal_once (hrc hrd : Bool) (st : AccState) (m : TermMode) :
    (gFinal hrc hrd st m).countP Event.isTerminal = 1 := by
  cases m <;>
    simp only [gFinal] <;>
    (repeat' split) <;>
    simp [List.countP_append, List.countP_cons, Event.isTerminal,
      Event.isCompletion, Event.isError]

/-- Shape of an Anthropic frame step: if it did not end the session its
events are non-terminal; if it did, the events are exactly one error. -/
theorem aFrameStep_shape (hrc hrd : Bool) (st : AnthState) (f : AFrame) :
    ((aFrameStep hrc hrd st f).2.2 = false →
      ∀ e ∈ (aFrameStep hrc hrd st f).2.1, e.isTerminal = false)
    ∧ ((aFrameStep hrc hrd st f).2.2 = true →
      (aFrameStep hrc hrd st f).2.1.countP Event.isTerminal = 1) := by
  cases f <;> simp only [aFrameStep] <;>
    (repeat' split) <;>
    simp_all [Event.isTerminal, Event.isCompletion, Event.isError,
      List.countP_cons]

theorem aLineStep_shape (hrc hrd : Bool) (st : AnthState) (l : ALine) :
    ((aLineStep hrc hrd st l).2.2 = false →
      ∀ e ∈ (aLineStep hrc hrd st l).2.1, e.isTerminal = false)
    ∧ ((aLineStep hrc hrd st l).2.2 = true →
      (aLineStep hrc hrd st l).2.1.countP Event.isTerminal = 1) := by
  cases l <;> simp only [aLineStep] <;> first
    | exact aFrameStep_shape hrc hrd st _
    | simp

theorem aLines_shape (hrc hrd : Bool) (ls : List ALine) :
    ∀ st, ((aLines hrc hrd st ls).2.2 = false →
      ∀ e ∈ (aLines hrc hrd st ls).2.1, e.isTerminal = false)
    ∧ ((aLines hrc hrd st ls).2.2 = true →
      (aLines hrc hrd st ls).2.1.countP Event.isTerminal = 1) := by
  induction ls with
  | nil => simp [aLines]
  | cons l ls ih =>
    intro st
    simp only [aLines]
    split
    · rename_i hend
      refine ⟨by simp, fun _ => (aLineStep_shape hrc hrd st l).2 hend⟩
    · rename_i hend
      constructor
      · intro hrest e he
        rcases List.mem_append.1 he with h | h
        · exact (aLineStep_shape hrc hrd st l).1 (by simpa using hend) e h
        · exact ((ih _).1) hrest e h
      · intro hrest
        rw [List.countP_append]
        have h0 : ((aLineStep hrc hrd st l).2.1).countP Event.isTerminal = 0 :=
          List.countP_eq_zero.2 (by
            intro e he
            simpa using (aLineStep_shape hrc hrd st l).1 (by simpa using hend) e he)
        rw [h0, (ih _).2 hrest]

theorem aChunks_shape (hrc hrd : Bool) (cs : List (List ALine)) :
    ∀ st, ((aChunks hrc hrd st cs).2.2 = false →
      ∀ e ∈ (aChunks hrc hrd st cs).2.1, e.isTerminal = false)
    ∧ ((aChunks hrc hrd st cs).2.2 = true →
      (aChunks hrc hrd st cs).2.1.countP Event.isTerminal = 1) := by
  induction cs with
  | nil => simp [aChunks]
  | cons c cs ih =>
    intro st
    simp only [aChunks]
    split
    · rename_i hend
      refine ⟨by simp, fun _ => (aLines_shape hrc hrd c st).2 hend⟩
    · rename_i hend
      constructor
      · intro hrest e he
        rcases List.mem_append.1 he with h | h
        · exact (aLines_shape hrc hrd c st).1 (by simpa using hend) e h
        · exact ((ih _).1) hrest e h
      · intro hrest
        rw [List.countP_append]
        have h0 : ((aLines hrc hrd st c).2.1).countP Event.isTerminal = 0 :=
          List.countP_eq_zero.2 (by
            intro e he
            simpa using (aLines_shape hrc hrd c st).1 (by simpa using hend) e he)
        rw [h0, (ih _).2 hrest]

theorem aFinal_terminal_once (hrc hrd : Bool) (st : AnthState) (m : TermMode) :
    (aFinal hrc hrd st m).countP Event.isTerminal = 1 := by
  cases m <;>
    simp only [aFinal] <;>
    (repeat' split) <;>
    simp [List.countP_append, List.countP_cons, Event.isTerminal,
      Event.isCompletion, Event.isError]

theorem oRun_terminal_once (hrc hrd : Bool) (chunks : List (List OLine)) (m : TermMode) :
    (oRun hrc hrd chunks m).countP Event.isTerminal = 1 := by
  simp only [oRun]
  rw [List.countP_append]
  have h0 : ((oChunks hrc hrd accInit chunks).2).countP Event.isTerminal = 0 :=
    List.countP_eq_zero.2 (by
      intro e he
      simpa using oChunks_not_terminal hrc hrd chunks accInit e he)
  rw [h0, oFinal_terminal_once]

theorem gRun_terminal_once (hrc hrd : Bool) (chunks : List (List GLine)) (m : TermMode) :
    (gRun hrc hrd chunks m).countP Event.isTerminal = 1 := by
  simp only [gRun]
  rw [List.countP_append]
  have h0 : ((gChunks hrc hrd accInit chunks).2).countP Event.isTerminal = 0 :=
    List.countP_eq_zero.2 (by
      intro e he
      simpa using gChunks_not_terminal hrc hrd chunks accInit e he)
  rw [h0, gFinal_terminal_once]

theorem aRun_terminal_once (hrc hrd : Bool) (chunks : List (List ALine)) (m : TermMode) :
    (aRun hrc hrd chunks m).countP Event.isTerminal = 1 := by
  simp only [aRun]
  split
  · rename_i hend
    exact (aChunks_shape hrc hrd chunks aInit).2 hend
  · rename_i hend
    rw [List.countP_append]
    have h0 : ((aChunks hrc hrd aInit chunks).2.1).countP Event.isTerminal = 0 :=
      List.countP_eq_zero.2 (by
        intro e he
        simpa using (aChunks_shape hrc hrd chunks aInit).1 (by simpa using hend) e he)
    rw [h0, aFinal_terminal_once]

theorem countP_completion_le_terminal (l : List Event) :
    l.countP Event.isCompletion ≤ l.countP Event.isTerminal := by
  induction l with
  | nil => simp
  | cons e l ih =>
    rw [List.countP_cons, List.countP_cons]
    by_cases h : e.isCompletion = true
    · rw [h, event_isCompletion_isTerminal h]
      omega
    · have : e.isCompletion = false := by simpa using h
      rw [this]
      simp only [Bool.false_eq_true, if_false, Nat.add_zero]
      omega

/-- **C1.** For every session of `sendStreamingMessage` of each of the
three provider adapters — over every HTTP outcome, every consumed chunk
sequence and every termination path (normal end of the transport
stream, in-band error frame, non-2xx status, cancellation via the abort
flag or via `AbortError`, or a network error) — exactly one terminal
callback fires: the number of `onComplete`/`onError` invocations is
exactly one, and in particular `onComplete` is never invoked more than
once. -/
theorem C1_terminal_callback_fires_exactly_once (hrc hrd : Bool)
    (fo : Option HttpFailure) (oc : List (List OLine)) (mo : TermMode)
    (fg : Option HttpFailure) (gc : List (List GLine)) (mg : TermMode)
    (fa : Option HttpFailure) (ac : List (List ALine)) (ma : TermMode) :
    ((sendStreamingMessageOpenAI hrc hrd fo oc mo).countP Event.isTerminal = 1
      ∧ (sendStreamingMessageOpenAI hrc hrd fo oc mo).countP Event.isCompletion ≤ 1)
    ∧ ((sendStreamingMessageGemini hrc hrd fg gc mg).countP Event.isTerminal = 1
      ∧ (sendStreamingMessageGemini hrc hrd fg gc mg).countP Event.isCompletion ≤ 1)
    ∧ ((sendStreamingMessageAnthropic hrc hrd fa ac ma).countP Event.isTerminal = 1
      ∧ (sendStreamingMessageAnthropic hrc hrd fa ac ma).countP Event.isCompletion ≤ 1) := by
  have ho : (sendStreamingMessageOpenAI hrc hrd fo oc mo).countP Event.isTerminal = 1 := by
    cases fo with
    | none => exact oRun_terminal_once hrc hrd oc mo
    | some f =>
      simp [sendStreamingMessageOpenAI, List.countP_cons, Event.isTerminal,
        Event.isCompletion, Event.isError]
  have hg : (sendStreamingMessageGemini hrc hrd fg gc mg).countP Event.isTerminal = 1 := by
    cases fg with
    | none => exact gRun_terminal_once hrc hrd gc mg
    | some f =>
      simp [sendStreamingMessageGemini, List.countP_cons, Event.isTerminal,
        Event.isCompletion, Event.isError]
  have ha : (sendStreamingMessageAnthropic hrc hrd fa ac ma).countP Event.isTerminal = 1 := by
    cases fa with
    | none => exact aRun_terminal_once hrc hrd ac ma
    | some f =>
      simp [sendStreamingMessageAnthropic, List.countP_cons, Event.isTerminal,
        Event.isCompletion, Event.isError]
  refine ⟨⟨ho, ?_⟩, ⟨hg, ?_⟩, ⟨ha, ?_⟩⟩
  · exact le_trans (countP_completion_le_terminal _) (le_of_eq ho)
  · exact le_trans (countP_completion_le_terminal _) (le_of_eq hg)
  · exact le_trans (countP_completion_le_terminal _) (le_of_eq ha)

/-! ## Content accumulation (C3, C4, C9) -/

/-- Concatenation of a list of delta strings. -/
def concatStr : List String → String
  | [] => ""
  | s :: ss => s ++ concatStr ss

/-- The expected `onChunk` call sequence for a run of content deltas
starting from accumulated text `acc`: each call carries the delta and
the previous accumulated text extended by it. -/
def contentTrace (acc : String) : List String → List Event
  | [] => []
  | d :: ds => Event.contentDelta d (acc ++ d) :: contentTrace (acc ++ d) ds

/-- A pure content frame steps the OpenAI-compatible state by appending
to the content and fires exactly the corresponding `onChunk` call. -/
theorem oFrameStep_content (hrc hrd : Bool) (st : AccState) (d : String)
    (hd : d ≠ "") (hr : st.reasoning = "") :
    oFrameStep hrc hrd st ⟨"", OContent.text d, [], [], ""⟩ =
      ({ st with content := st.content ++ d },
        [Event.contentDelta d (st.content ++ d)], false) := by
  have him := oFrameImages_silent { st with content := st.content ++ d }
    ⟨"", OContent.text d, [], [], ""⟩ (by intro ps h; cases h) rfl rfl
  simp only [hr] at him
  simp [oFrameStep, OContent.truthy, OContent.coerced, hd, hr, him]

/-- Processing a run of pure content frames followed by arbitrary
further lines: the content frames contribute exactly their
`contentTrace` and extend the content accumulator. -/
theorem oLines_content_run (hrc hrd : Bool) (ds : List String) (rest : List OLine) :
    ∀ st, (∀ d ∈ ds, d ≠ "") → st.reasoning = "" →
    oLines hrc hrd st (ds.map (fun d => OLine.frame ⟨"", OContent.text d, [], [], ""⟩) ++ rest) =
      ((oLines hrc hrd { st with content := st.content ++ concatStr ds } rest).1,
        contentTrace st.content ds
          ++ (oLines hrc hrd { st with content := st.content ++ concatStr ds } rest).2) := by
  induction ds with
  | nil =>
    intro st _ _
    simp [concatStr, contentTrace]
  | cons d ds ih =>
    intro st h hr
    have hd : d ≠ "" := h d (by simp)
    rw [List.map_cons, List.cons_append]
    rw [show oLines hrc hrd st (OLine.frame ⟨"", OContent.text d, [], [], ""⟩
        :: (ds.map (fun d => OLine.frame ⟨"", OContent.text d, [], [], ""⟩) ++ rest)) =
      (let r := oLineStep hrc hrd st (OLine.frame ⟨"", OContent.text d, [], [], ""⟩)
       if r.2.2 then ⟨r.1, r.2.1⟩
       else
        let rest' := oLines hrc hrd r.1 (ds.map (fun d => OLine.frame ⟨"", OContent.text d, [], [], ""⟩) ++ rest)
        ⟨rest'.1, r.2.1 ++ rest'.2⟩) from rfl]
    simp only [oLineStep, oFrameStep_content hrc hrd st d hd hr]
    simp only [Bool.false_eq_true, if_false]
    rw [ih { st with content := st.content ++ d } (fun x hx => h x (by simp [hx])) (by simp [hr])]
    simp [contentTrace, concatStr, String.append_assoc]

/-- A pure finish frame fires nothing and breaks the line loop. -/
theorem oFrameStep_finish (hrc hrd : Bool) (st : AccState) (fin : String)
    (hf : fin ≠ "") :
    oFrameStep hrc hrd st ⟨"", OContent.absent, [], [], fin⟩ = (st, [], true) := by
  have him := oFrameImages_silent st ⟨"", OContent.absent, [], [], fin⟩
    (by intro ps h; cases h) rfl rfl
  simp [oFrameStep, OContent.truthy, hf, him]

/-- The OpenAI-compatible adapter on a synthetic stream of `N` content
frames and a finish frame. -/
theorem oRun_content_stream (hrc hrd : Bool) (ds : List String)
    (h : ∀ d ∈ ds, d ≠ "") :
    oRun hrc hrd
        [ds.map (fun d => OLine.frame ⟨"", OContent.text d, [], [], ""⟩) ++ [OLine.frame ⟨"", OContent.absent, [], [], "stop"⟩]]
        TermMode.normal =
      contentTrace "" ds ++ [Event.completion (concatStr ds)] := by
  have hfin : ("stop" : String) ≠ "" := by simp
  have hone : ∀ st : AccState,
      oLines hrc hrd st [OLine.frame ⟨"", OContent.absent, [], [], "stop"⟩] = (st, []) := by
    intro st
    simp [oLines, oLineStep, oFrameStep_finish hrc hrd st "stop" hfin]
  simp only [oRun, oChunks,
    oLines_content_run hrc hrd ds [OLine.frame ⟨"", OContent.absent, [], [], "stop"⟩] accInit h rfl, hone]
  simp [oFinal, accInit]

/-- A pure content part steps the Gemini state by appending to the
content and fires exactly the corresponding `onChunk` call. -/
theorem gPartStep_content (hrc hrd : Bool) (st : AccState) (d : String)
    (hd : d ≠ "") (hr : st.reasoning = "") :
    gPartStep hrc hrd st ⟨"", d⟩ =
      ({ st with content := st.content ++ d },
        [Event.contentDelta d (st.content ++ d)]) := by
  simp [gPartStep, hd, hr]

/-- Gemini analogue of `oLines_content_run`. -/
theorem gLines_content_run (hrc hrd : Bool) (ds : List String) (rest : List GLine) :
    ∀ st, (∀ d ∈ ds, d ≠ "") → st.reasoning = "" →
    gLines hrc hrd st (ds.map (fun d => GLine.frame ⟨[⟨"", d⟩], "", none⟩) ++ rest) =
      ((gLines hrc hrd { st with content := st.content ++ concatStr ds } rest).1,
        contentTrace st.content ds
          ++ (gLines hrc hrd { st with content := st.content ++ concatStr ds } rest).2) := by
  induction ds with
  | nil =>
    intro st _ _
    simp [concatStr, contentTrace]
  | cons d ds ih =>
    intro st h hr
    have hd : d ≠ "" := h d (by simp)
    rw [List.map_cons, List.cons_append]
    simp only [gLines, gLineStep, gParts, gPartStep_content hrc hrd st d hd hr]
    rw [ih { st with content := st.content ++ d } (fun x hx => h x (by simp [hx])) (by simp [hr])]
    simp [contentTrace, concatStr, String.append_assoc]

/-- The Gemini adapter on a synthetic stream of `N` content frames and
a finish frame (`finishReason` only gets logged, never breaks). -/
theorem gRun_content_stream (hrc hrd : Bool) (ds : List String)
    (h : ∀ d ∈ ds, d ≠ "") :
    gRun hrc hrd
        [ds.map (fun d => GLine.frame ⟨[⟨"", d⟩], "", none⟩)
          ++ [GLine.frame ⟨[], "STOP", none⟩]]
        TermMode.normal =
      contentTrace "" ds ++ [Event.completion (concatStr ds)] := by
  have hone : ∀ st : AccState,
      gLines hrc hrd st [GLine.frame ⟨[], "STOP", none⟩] = (st, []) := by
    intro st
    simp [gLines, gLineStep, gParts]
  simp only [gRun, gChunks,
    gLines_content_run hrc hrd ds [GLine.frame ⟨[], "STOP", none⟩] accInit h rfl, hone]
  simp [gFinal, accInit]

/-- A `text_delta` outside a thinking block steps the Anthropic state
by appending to the content and fires exactly the corresponding
`onChunk` call. -/
theorem aFrameStep_content (hrc hrd : Bool) (st : AnthState) (d : String)
    (hd : d ≠ "") (hr : st.reasoning = "")
    (hb : ¬(st.blockType = "thinking" ∧ hrc = true)) :
    aFrameStep hrc hrd st (.blockDelta "text_delta" d) =
      ({ st with content := st.content ++ d },
        [Event.contentDelta d (st.content ++ d)], false) := by
  simp only [aFrameStep]
  rw [if_pos ⟨trivial, hd⟩, if_neg hb]
  simp [hr]

/-- Anthropic analogue of `oLines_content_run`. -/
theorem aLines_content_run (hrc hrd : Bool) (ds : List String) (rest : List ALine) :
    ∀ st, (∀ d ∈ ds, d ≠ "") → st.reasoning = "" →
    ¬(st.blockType = "thinking" ∧ hrc = true) →
    aLines hrc hrd st
        (ds.map (fun d => ALine.frame (.blockDelta "text_delta" d)) ++ rest) =
      ((aLines hrc hrd { st with content := st.content ++ concatStr ds } rest).1,
        contentTrace st.content ds
          ++ (aLines hrc hrd { st with content := st.content ++ concatStr ds } rest).2.1,
        (aLines hrc hrd { st with content := st.content ++ concatStr ds } rest).2.2) := by
  induction ds with
  | nil =>
    intro st _ _ _
    simp [concatStr, contentTrace]
  | cons d ds ih =>
    intro st h hr hb
    have hd : d ≠ "" := h d (by simp)
    rw [List.map_cons, List.cons_append]
    simp only [aLines, aLineStep, aFrameStep_content hrc hrd st d hd hr hb]
    simp only [Bool.false_eq_true, if_false]
    rw [ih { st with content := st.content ++ d } (fun x hx => h x (by simp [hx]))
      (by simp [hr]) (by simpa using hb)]
    simp [contentTrace, concatStr, String.append_assoc]

/-- The Anthropic adapter on a synthetic stream of `N` content frames
and a finish frame (`message_stop`). -/
theorem aRun_content_stream (hrc hrd : Bool) (ds : List String)
    (h : ∀ d ∈ ds, d ≠ "") :
    aRun hrc hrd
        [ds.map (fun d => ALine.frame (.blockDelta "text_delta" d))
          ++ [ALine.frame .messageStop]]
        TermMode.normal =
      contentTrace "" ds ++ [Event.completion (concatStr ds)] := by
  have hone : ∀ st : AnthState,
      aLines hrc hrd st [ALine.frame .messageStop] = (st, [], false) := by
    intro st
    simp [aLines, aLineStep, aFrameStep]
  simp only [aRun, aChunks,
    aLines_content_run hrc hrd ds [ALine.frame .messageStop] aInit h rfl
      (by simp [aInit]),
    hone]
  simp [aFinal, aInit]

/-- **C3.** For every provider adapter, feeding a synthetic SSE stream
of `N` frames each carrying one non-empty content delta, followed by a
finish frame, produces exactly the `N` `onChunk` invocations in which
each accumulated text is the previous one extended by that call's delta
(`contentTrace "" ds`), followed by exactly one `onComplete` whose
argument is the full concatenation, i.e. the last accumulated text. -/
theorem C3_content_stream_all_adapters (hrc hrd : Bool) (ds : List String)
    (h : ∀ d ∈ ds, d ≠ "") :
    oRun hrc hrd
        [ds.map (fun d => OLine.frame ⟨"", OContent.text d, [], [], ""⟩) ++ [OLine.frame ⟨"", OContent.absent, [], [], "stop"⟩]]
        TermMode.normal =
      contentTrace "" ds ++ [Event.completion (concatStr ds)]
    ∧ gRun hrc hrd
        [ds.map (fun d => GLine.frame ⟨[⟨"", d⟩], "", none⟩)
          ++ [GLine.frame ⟨[], "STOP", none⟩]]
        TermMode.normal =
      contentTrace "" ds ++ [Event.completion (concatStr ds)]
    ∧ aRun hrc hrd
        [ds.map (fun d => ALine.frame (.blockDelta "text_delta" d))
          ++ [ALine.frame .messageStop]]
        TermMode.normal =
      contentTrace "" ds ++ [Event.completion (concatStr ds)] :=
  ⟨oRun_content_stream hrc hrd ds h, gRun_content_stream hrc hrd ds h,
    aRun_content_stream hrc hrd ds h⟩

/-- Witness for C3, at the spec's own example stream
`"Hi"`, `" there"`, finish: two `onChunk` calls `("Hi", "Hi")` and
`(" there", "Hi there")`, then `onComplete("Hi there")`. -/
theorem C3_content_stream_all_adapters_witness :
    (∀ d ∈ (["Hi", " there"] : List String), d ≠ "")
    ∧ oRun true true
        [(["Hi", " there"] : List String).map (fun d => OLine.frame ⟨"", OContent.text d, [], [], ""⟩)
          ++ [OLine.frame ⟨"", OContent.absent, [], [], "stop"⟩]]
        TermMode.normal =
      [Event.contentDelta "Hi" "Hi", Event.contentDelta " there" "Hi there",
        Event.completion "Hi there"] :=
  ⟨by decide, by
    have := (C3_content_stream_all_adapters true true ["Hi", " there"] (by decide)).1
    simpa [contentTrace, concatStr] using this⟩

/-! ## The `[DONE]` sentinel (C4) -/

/-- **C4 (counterexample).** The claim says that once a `data: [DONE]`
payload has been decoded, no further lines of the stream are parsed.
The source instead executes `continue`, skipping only the `[DONE]` line
itself: in the stream `[DONE]` followed by a content frame `"hi"`, the
later frame is still parsed and fires `onChunk("hi","hi")` (under the
claim, the trace would have been `[onComplete("")]`). -/
theorem C4_done_stops_parsing_counterexample :
    oRun true true [[OLine.done, OLine.frame ⟨"", OContent.text "hi", [], [], ""⟩]] TermMode.normal =
      [Event.contentDelta "hi" "hi", Event.completion "hi"]
    ∧ oRun true true [[OLine.done, OLine.frame ⟨"", OContent.text "hi", [], [], ""⟩]] TermMode.normal ≠
      [Event.completion ""] := by
  constructor
  · rfl
  · decide

/-- **C4 (amended).** In the OpenAI-compatible adapter, a frame whose
data payload is the literal string `[DONE]` is skipped without any
effect: it fires nothing (in particular it does not invoke
`onComplete`, which fires only when the transport read loop ends), and
the remaining lines of the stream are processed exactly as if the
`[DONE]` line were absent. -/
theorem C4_done_is_skipped (hrc hrd : Bool) (ls : List OLine)
    (chs : List (List OLine)) (m : TermMode) :
    oRun hrc hrd ((OLine.done :: ls) :: chs) m = oRun hrc hrd (ls :: chs) m := by
  simp [oRun, oChunks, oLines, oLineStep]

/-! ## Malformed-frame tolerance (C9) -/

/-- **C9.** A stream with one `data:` line whose payload is not valid
JSON between two valid content frames still yields both `onChunk`
invocations, fires no `onError` for the malformed line, and the session
completes normally: the parse failure is logged and skipped. -/
theorem C9_malformed_line_is_skipped (c1 c2 : String) (h1 : c1 ≠ "") (h2 : c2 ≠ "") :
    oRun true true
        [[OLine.frame ⟨"", OContent.text c1, [], [], ""⟩, OLine.malformed, OLine.frame ⟨"", OContent.text c2, [], [], ""⟩]]
        TermMode.normal =
      [Event.contentDelta c1 c1, Event.contentDelta c2 (c1 ++ c2),
        Event.completion (c1 ++ c2)] := by
  have e1 := oFrameStep_content true true accInit c1 h1 rfl
  have e2 := oFrameStep_content true true
    { accInit with content := accInit.content ++ c1 } c2 h2 rfl
  simp only [oRun, oChunks, oLines, oLineStep, e1, e2]
  simp [oFinal, accInit]

/-- Witness for C9 at `c1 = "a"`, `c2 = "b"`. -/
theorem C9_malformed_line_is_skipped_witness :
    (("a" : String) ≠ "" ∧ ("b" : String) ≠ "")
    ∧ oRun true true
        [[OLine.frame ⟨"", OContent.text "a", [], [], ""⟩, OLine.malformed, OLine.frame ⟨"", OContent.text "b", [], [], ""⟩]]
        TermMode.normal =
      [Event.contentDelta "a" "a", Event.contentDelta "b" "ab",
        Event.completion "ab"] :=
  ⟨⟨by decide, by decide⟩, C9_malformed_line_is_skipped "a" "b" (by decide) (by decide)⟩

/-! ## In-band provider-reported errors (C5) -/

/-- **C5 (failing input evaluated).** An in-band error frame on a 2xx
stream.  In the Anthropic adapter the `error` event does reach
`onError` and ends the session.  In the Gemini adapter, however, the
`throw new Error(parsed.error.message...)` statement is lexically inside
the `try { const parsed = JSON.parse(data) ... }` block whose
`catch (parseError)` only logs, so the provider-reported error is
swallowed as if it were a parse failure: `onError` is never invoked and
the session later completes normally with `onComplete("")` — the code
contradicts the intent of its own `// Check for errors` path and the
spec's error funnel. -/
theorem C5_gemini_inband_error_swallowed :
    sendStreamingMessageGemini true true none
        [[GLine.frame ⟨[], "", some "boom"⟩]] TermMode.normal =
      [Event.completion ""]
    ∧ (sendStreamingMessageGemini true true none
        [[GLine.frame ⟨[], "", some "boom"⟩]] TermMode.normal).countP Event.isError = 0
    ∧ sendStreamingMessageAnthropic true true none
        [[ALine.frame (.errorFrame "boom")]] TermMode.normal =
      [Event.error "boom"] := by
  refine ⟨rfl, ?_, rfl⟩
  decide

/-! ## Reasoning-then-content ordering (C2) -/

/-- `a ++ b ≠ ""` when `a ≠ ""`. -/
theorem str_append_ne_left {a : String} (b : String) (h : a ≠ "") : a ++ b ≠ "" := by
  intro hab
  apply h
  have hlen : (a ++ b).length = 0 := by rw [hab]; rfl
  rw [String.length_append] at hlen
  have : a.length = 0 := by omega
  exact String.ext (by simpa [String.length] using List.length_eq_zero.1 this)

/-- `a ++ b ≠ ""` when `b ≠ ""`. -/
theorem str_append_ne_right (a : String) {b : String} (h : b ≠ "") : a ++ b ≠ "" := by
  intro hab
  apply h
  have hlen : (a ++ b).length = 0 := by rw [hab]; rfl
  rw [String.length_append] at hlen
  have : b.length = 0 := by omega
  exact String.ext (by simpa [String.length] using List.length_eq_zero.1 this)

/-- The concatenation of a list containing a non-empty string is
non-empty. -/
theorem concatStr_ne_empty_of_mem (rs : List String) (r : String)
    (hr : r ∈ rs) (h : r ≠ "") : concatStr rs ≠ "" := by
  induction rs with
  | nil => cases hr
  | cons s ss ih =>
    rcases List.mem_cons.1 hr with rfl | hmem
    · exact str_append_ne_left _ h
    · exact str_append_ne_right _ (ih hmem)

/-- The `onReasoningChunk` call sequence for a run of reasoning-only
frames with the given reasoning fields, starting from accumulated
reasoning `acc` (frames with an absent reasoning field fire nothing). -/
def reasoningTrace (acc : String) : List String → List Event
  | [] => []
  | r :: rs =>
    (if r ≠ "" then [Event.reasoningDelta r (acc ++ r)] else [])
      ++ reasoningTrace (acc ++ r) rs

/-- Every event of a `reasoningTrace` is a `ReasoningDelta`. -/
theorem reasoningTrace_events (rs : List String) :
    ∀ acc, ∀ e ∈ reasoningTrace acc rs, e.isReasoningDelta = true := by
  induction rs with
  | nil => simp [reasoningTrace]
  | cons r rs ih =>
    intro acc e he
    simp only [reasoningTrace] at he
    rcases List.mem_append.1 he with h | h
    · by_cases hr : r ≠ "" <;> simp_all [Event.isReasoningDelta]
    · exact ih _ e h

/-- A frame that fires no `onChunk` at all: its `delta.content` is
falsy (absent or the empty string — in particular not an array, since
arrays are truthy in JS even when empty), both image arrays are empty,
and it carries no finish reason. -/
def OFrame.silent (f : OFrame) : Prop :=
  f.content.truthy = false ∧ f.images = [] ∧ f.messageImages = []
    ∧ f.finish = ""

instance (f : OFrame) : Decidable f.silent :=
  inferInstanceAs (Decidable (f.content.truthy = false ∧ f.images = []
    ∧ f.messageImages = [] ∧ f.finish = ""))

/-- A silent frame only accumulates (and possibly reports) reasoning. -/
theorem oFrameStep_silent (st : AccState) (f : OFrame) (h : f.silent) :
    oFrameStep true true st f =
      ({ st with reasoning := st.reasoning ++ f.reasoning },
        if f.reasoning ≠ "" then
          [Event.reasoningDelta f.reasoning (st.reasoning ++ f.reasoning)]
        else [], false) := by
  obtain ⟨hco, h5, h6, hf⟩ := h
  have h4 : ∀ ps, f.content ≠ OContent.parts ps := by
    intro ps hps
    rw [hps] at hco
    exact absurd hco (by simp [OContent.truthy])
  by_cases hr : f.reasoning = ""
  · have him := oFrameImages_silent st f h4 h5 h6
    simp [oFrameStep, hco, hf, hr, him]
  · have him := oFrameImages_silent
      { st with reasoning := st.reasoning ++ f.reasoning } f h4 h5 h6
    simp [oFrameStep, hco, hf, hr, him]

/-- Processing a run of silent frames followed by arbitrary further
lines: the prefix contributes exactly its `reasoningTrace` and extends
the reasoning accumulator, leaving content and the reasoning-done flag
untouched. -/
theorem oLines_noContent_run (as : List OFrame) (rest : List OLine) :
    ∀ st, (∀ f ∈ as, f.silent) →
    oLines true true st (as.map OLine.frame ++ rest) =
      ((oLines true true
          { st with reasoning := st.reasoning ++ concatStr (as.map OFrame.reasoning) }
          rest).1,
        reasoningTrace st.reasoning (as.map OFrame.reasoning)
          ++ (oLines true true
              { st with reasoning := st.reasoning ++ concatStr (as.map OFrame.reasoning) }
              rest).2) := by
  induction as with
  | nil =>
    intro st _
    simp [concatStr, reasoningTrace]
  | cons f as ih =>
    intro st h
    have hf := h f (by simp)
    rw [List.map_cons, List.cons_append]
    simp only [oLines, oLineStep, oFrameStep_silent st f hf]
    simp only [Bool.false_eq_true, if_false]
    rw [ih { st with reasoning := st.reasoning ++ f.reasoning }
      (fun x hx => h x (by simp [hx]))]
    simp [reasoningTrace, concatStr, String.append_assoc]

/-- The state after the first content-carrying frame `c` of a session
whose prior frames were silent with accumulated reasonings `as`: the
coerced content plus whatever the image branches of `c` append. -/
def oAfterFirstContent (as : List OFrame) (c : OFrame) : AccState :=
  (oFrameImages
    ⟨c.content.coerced, concatStr (as.map OFrame.reasoning) ++ c.reasoning, true⟩ c).1

/-- The image-branch events of that same first content frame. -/
def oImgEvents (as : List OFrame) (c : OFrame) : List Event :=
  (oFrameImages
    ⟨c.content.coerced, concatStr (as.map OFrame.reasoning) ++ c.reasoning, true⟩ c).2

/-- The first frame with truthy `delta.content` reached with non-empty
accumulated reasoning and the done flag unset: it fires the (optional)
reasoning delta, then `onReasoningComplete`, then the content `onChunk`,
then its image-branch `onChunk`s, and sets the done flag. -/
theorem oFrameStep_first_content (st : AccState) (c : OFrame)
    (hc : c.content.truthy = true) (hr : st.reasoning ≠ "")
    (hd : st.reasoningDone = false) :
    oFrameStep true true st c =
      ((oFrameImages
          ⟨st.content ++ c.content.coerced, st.reasoning ++ c.reasoning, true⟩ c).1,
        (if c.reasoning ≠ "" then
          [Event.reasoningDelta c.reasoning (st.reasoning ++ c.reasoning)]
        else [])
          ++ Event.reasoningComplete
          :: Event.contentDelta c.content.coerced (st.content ++ c.content.coerced)
          :: (oFrameImages
              ⟨st.content ++ c.content.coerced, st.reasoning ++ c.reasoning, true⟩ c).2,
        decide (c.finish ≠ "")) := by
  by_cases hcr : c.reasoning = ""
  · simp [oFrameStep, hc, hr, hd, hcr]
  · have hne : st.reasoning ++ c.reasoning ≠ "" := str_append_ne_left _ hr
    simp [oFrameStep, hc, hr, hd, hcr, hne]

/-- Once the reasoning-done flag is set, a frame step never fires
`onReasoningComplete` again and never clears the flag. -/
theorem oFrameStep_done_no_rc (st : AccState) (f : OFrame)
    (h : st.reasoningDone = true) :
    (∀ e ∈ (oFrameStep true true st f).2.1, e.isReasoningComplete = false)
    ∧ (oFrameStep true true st f).1.reasoningDone = true := by
  constructor
  · intro e he
    simp only [oFrameStep] at he
    rcases List.mem_append.1 he with hm | hm
    · (repeat' split at hm) <;> cases e <;>
        simp_all [Event.isReasoningComplete]
    · have hcd := oFrameImages_events _ _ e hm
      cases e <;> simp_all [Event.isContentDelta, Event.isReasoningComplete]
  · simp only [oFrameStep]
    rw [(oFrameImages_state _ _).2]
    (repeat' split) <;> simp_all

/-- Once the reasoning-done flag is set, the rest of the line loop
never fires `onReasoningComplete` and never clears the flag. -/
theorem oLines_done_no_rc (ls : List OLine) :
    ∀ st, st.reasoningDone = true →
    (∀ e ∈ (oLines true true st ls).2, e.isReasoningComplete = false)
    ∧ (oLines true true st ls).1.reasoningDone = true := by
  induction ls with
  | nil => simp [oLines]
  | cons l ls ih =>
    intro st h
    have hstep : (∀ e ∈ (oLineStep true true st l).2.1, e.isReasoningComplete = false)
        ∧ (oLineStep true true st l).1.reasoningDone = true := by
      cases l <;> simp only [oLineStep] <;> first
        | exact oFrameStep_done_no_rc st _ h
        | simp [h]
    simp only [oLines]
    split
    · exact ⟨hstep.1, hstep.2⟩
    · refine ⟨?_, ((ih _ hstep.2).2)⟩
      intro e he
      rcases List.mem_append.1 he with hm | hm
      · exact hstep.1 e hm
      · exact (ih _ hstep.2).1 e hm

/-- Same, over whole chunks. -/
theorem oChunks_done_no_rc (cs : List (List OLine)) :
    ∀ st, st.reasoningDone = true →
    (∀ e ∈ (oChunks true true st cs).2, e.isReasoningComplete = false)
    ∧ (oChunks true true st cs).1.reasoningDone = true := by
  induction cs with
  | nil => simp [oChunks]
  | cons c cs ih =>
    intro st h
    simp only [oChunks]
    refine ⟨?_, (ih _ (oLines_done_no_rc c st h).2).2⟩
    intro e he
    rcases List.mem_append.1 he with hm | hm
    · exact (oLines_done_no_rc c st h).1 e hm
    · exact (ih _ (oLines_done_no_rc c st h).2).1 e hm

/-- **C2 (counterexample).** The claim quantifies over every frame
sequence containing a reasoning frame somewhere before a content frame;
two instances refute it.  First, in the stream content `"a"`, reasoning
`"r"`, content `"b"`, the reasoning frame (index 1) is followed by a
content frame (index 2), yet the first `onChunk` (trace index 0)
strictly precedes `onReasoningComplete` (trace index 2).  Second, even
with all reasoning first: in the stream reasoning `"r"`, a frame whose
`delta.images` carries one image, content `"b"`, the image branch fires
`onChunk` with the image marker *without* the reasoning-complete guard,
so again the first `onChunk` (trace index 1) precedes
`onReasoningComplete` (trace index 2). -/
theorem C2_reasoning_ordering_counterexample :
    (oRun true true
        [[OLine.frame ⟨"", OContent.text "a", [], [], ""⟩,
          OLine.frame ⟨"r", OContent.absent, [], [], ""⟩,
          OLine.frame ⟨"", OContent.text "b", [], [], ""⟩]]
        TermMode.normal =
      [Event.contentDelta "a" "a", Event.reasoningDelta "r" "r",
        Event.reasoningComplete, Event.contentDelta "b" "ab",
        Event.completion "ab"]
    ∧ (oRun true true
        [[OLine.frame ⟨"", OContent.text "a", [], [], ""⟩,
          OLine.frame ⟨"r", OContent.absent, [], [], ""⟩,
          OLine.frame ⟨"", OContent.text "b", [], [], ""⟩]]
        TermMode.normal).findIdx Event.isContentDelta = 0
    ∧ (oRun true true
        [[OLine.frame ⟨"", OContent.text "a", [], [], ""⟩,
          OLine.frame ⟨"r", OContent.absent, [], [], ""⟩,
          OLine.frame ⟨"", OContent.text "b", [], [], ""⟩]]
        TermMode.normal).findIdx Event.isReasoningComplete = 2)
    ∧ ((oRun true true
        [[OLine.frame ⟨"r", OContent.absent, [], [], ""⟩,
          OLine.frame ⟨"", OContent.absent, [⟨"http://i", ""⟩], [], ""⟩,
          OLine.frame ⟨"", OContent.text "b", [], [], ""⟩]]
        TermMode.normal).findIdx Event.isContentDelta = 1
    ∧ (oRun true true
        [[OLine.frame ⟨"r", OContent.absent, [], [], ""⟩,
          OLine.frame ⟨"", OContent.absent, [⟨"http://i", ""⟩], [], ""⟩,
          OLine.frame ⟨"", OContent.text "b", [], [], ""⟩]]
        TermMode.normal).findIdx Event.isReasoningComplete = 2) := by
  refine ⟨⟨rfl, ?_, ?_⟩, ?_, ?_⟩ <;> decide

/-- After the reasoning-done flag is set, the normal-termination
finalization fires no further `onReasoningComplete`. -/
theorem oFinal_done_no_rc (st : AccState) (h : st.reasoningDone = true) :
    ∀ e ∈ oFinal true true st TermMode.normal, e.isReasoningComplete = false := by
  simp [oFinal, h, Event.isReasoningComplete]

/-- Exact trace of a silent-prefix-then-content session whose first
content frame does not carry a finish reason. -/
theorem oRun_reasoning_then_content_nofin
    (as : List OFrame) (c : OFrame) (bs : List OLine) (cs : List (List OLine))
    (has : ∀ f ∈ as, f.silent)
    (hc : c.content.truthy = true)
    (hcat : concatStr (as.map OFrame.reasoning) ≠ "")
    (hfin : c.finish = "") :
    oRun true true ((as.map OLine.frame ++ OLine.frame c :: bs) :: cs)
        TermMode.normal =
      reasoningTrace "" (as.map OFrame.reasoning)
        ++ (if c.reasoning ≠ "" then
            [Event.reasoningDelta c.reasoning
              (concatStr (as.map OFrame.reasoning) ++ c.reasoning)]
          else [])
        ++ Event.reasoningComplete
        :: Event.contentDelta c.content.coerced c.content.coerced
        :: (oImgEvents as c
          ++ (oLines true true (oAfterFirstContent as c) bs).2
          ++ (oChunks true true
              (oLines true true (oAfterFirstContent as c) bs).1 cs).2
          ++ oFinal true true
              (oChunks true true
                (oLines true true (oAfterFirstContent as c) bs).1 cs).1
              TermMode.normal) := by
  have hr1 : ({ accInit with
      reasoning := accInit.reasoning ++ concatStr (as.map OFrame.reasoning) } :
      AccState).reasoning ≠ "" := by
    simpa [accInit] using hcat
  simp only [oRun, oChunks]
  rw [oLines_noContent_run as (OLine.frame c :: bs) accInit has]
  simp only [oLines, oLineStep]
  rw [oFrameStep_first_content _ c hc hr1 rfl]
  simp [hfin, accInit, oAfterFirstContent, oImgEvents, List.append_assoc]

/-- Exact trace of a silent-prefix-then-content session whose first
content frame also carries a finish reason (the rest of its chunk is
skipped). -/
theorem oRun_reasoning_then_content_fin
    (as : List OFrame) (c : OFrame) (bs : List OLine) (cs : List (List OLine))
    (has : ∀ f ∈ as, f.silent)
    (hc : c.content.truthy = true)
    (hcat : concatStr (as.map OFrame.reasoning) ≠ "")
    (hfin : c.finish ≠ "") :
    oRun true true ((as.map OLine.frame ++ OLine.frame c :: bs) :: cs)
        TermMode.normal =
      reasoningTrace "" (as.map OFrame.reasoning)
        ++ (if c.reasoning ≠ "" then
            [Event.reasoningDelta c.reasoning
              (concatStr (as.map OFrame.reasoning) ++ c.reasoning)]
          else [])
        ++ Event.reasoningComplete
        :: Event.contentDelta c.content.coerced c.content.coerced
        :: (oImgEvents as c
          ++ (oChunks true true (oAfterFirstContent as c) cs).2
          ++ oFinal true true
              (oChunks true true (oAfterFirstContent as c) cs).1
              TermMode.normal) := by
  have hr1 : ({ accInit with
      reasoning := accInit.reasoning ++ concatStr (as.map OFrame.reasoning) } :
      AccState).reasoning ≠ "" := by
    simpa [accInit] using hcat
  simp only [oRun, oChunks]
  rw [oLines_noContent_run as (OLine.frame c :: bs) accInit has]
  simp only [oLines, oLineStep]
  rw [oFrameStep_first_content _ c hc hr1 rfl]
  simp [hfin, accInit, oAfterFirstContent, oImgEvents, List.append_assoc]

/-- **C2 (amended).** For every OpenAI-compatible session (with both
reasoning callbacks supplied) whose stream consists of a prefix of
silent frames — frames firing no `onChunk`: falsy `delta.content` and
no image arrays — at least one of which carries reasoning, followed by
the first frame with truthy `delta.content` and then anything at all,
`onReasoningComplete` fires exactly once — immediately before the first
`onChunk` invocation: the trace splits as
`A ++ ReasoningComplete :: ContentDelta :: B` where `A` contains no
`ReasoningComplete` and no `ContentDelta` and `B` contains no further
`ReasoningComplete`.  (The unamended claim fails both when a content
frame precedes the reasoning frames and when a `delta.images` frame —
which fires `onChunk` without the reasoning-complete guard — intervenes,
see the counterexample.) -/
theorem C2_amended_reasoning_complete_before_first_content
    (as : List OFrame) (c : OFrame) (bs : List OLine) (cs : List (List OLine))
    (has : ∀ f ∈ as, f.silent)
    (hsome : ∃ f ∈ as, f.reasoning ≠ "")
    (hc : c.content.truthy = true) :
    ∃ A B,
      oRun true true ((as.map OLine.frame ++ OLine.frame c :: bs) :: cs)
          TermMode.normal =
        A ++ Event.reasoningComplete
          :: Event.contentDelta c.content.coerced c.content.coerced :: B
      ∧ (∀ e ∈ A, e.isReasoningComplete = false ∧ e.isContentDelta = false)
      ∧ (∀ e ∈ B, e.isReasoningComplete = false) := by
  obtain ⟨f0, hf0, hf0r⟩ := hsome
  have hcat : concatStr (as.map OFrame.reasoning) ≠ "" :=
    concatStr_ne_empty_of_mem _ _ (List.mem_map_of_mem _ hf0) hf0r
  have hA : ∀ e ∈ reasoningTrace "" (as.map OFrame.reasoning)
      ++ (if c.reasoning ≠ "" then
        [Event.reasoningDelta c.reasoning
          (concatStr (as.map OFrame.reasoning) ++ c.reasoning)]
      else []),
      e.isReasoningComplete = false ∧ e.isContentDelta = false := by
    intro e he
    have hrd : e.isReasoningDelta = true := by
      rcases List.mem_append.1 he with hm | hm
      · exact reasoningTrace_events _ _ e hm
      · by_cases hcr : c.reasoning ≠ "" <;> simp_all [Event.isReasoningDelta]
    cases e <;> simp_all [Event.isReasoningDelta, Event.isReasoningComplete,
      Event.isContentDelta]
  have hdone : (oAfterFirstContent as c).reasoningDone = true :=
    (oFrameImages_state _ _).2
  have himg : ∀ e ∈ oImgEvents as c, e.isReasoningComplete = false := by
    intro e he
    have hcd := oFrameImages_events _ _ e he
    cases e <;> simp_all [Event.isContentDelta, Event.isReasoningComplete]
  by_cases hfin : c.finish = ""
  · refine ⟨_, _,
      oRun_reasoning_then_content_nofin as c bs cs has hc hcat hfin, hA, ?_⟩
    intro e he
    have hbs := oLines_done_no_rc bs (oAfterFirstContent as c) hdone
    have hcs := oChunks_done_no_rc cs _ hbs.2
    rcases List.mem_append.1 he with hm | hm
    · rcases List.mem_append.1 hm with hm2 | hm2
      · rcases List.mem_append.1 hm2 with hm3 | hm3
        · exact himg e hm3
        · exact hbs.1 e hm3
      · exact hcs.1 e hm2
    · exact oFinal_done_no_rc _ hcs.2 e hm
  · refine ⟨_, _,
      oRun_reasoning_then_content_fin as c bs cs has hc hcat hfin, hA, ?_⟩
    intro e he
    have hcs := oChunks_done_no_rc cs (oAfterFirstContent as c) hdone
    rcases List.mem_append.1 he with hm | hm
    · rcases List.mem_append.1 hm with hm2 | hm2
      · exact himg e hm2
      · exact hcs.1 e hm2
    · exact oFinal_done_no_rc _ hcs.2 e hm

/-- Witness for the amended C2: reasoning `"r"` then content `"hi"`. -/
theorem C2_amended_reasoning_complete_before_first_content_witness :
    (∀ f ∈ ([⟨"r", OContent.absent, [], [], ""⟩] : List OFrame), f.silent)
    ∧ (∃ f ∈ ([⟨"r", OContent.absent, [], [], ""⟩] : List OFrame), f.reasoning ≠ "")
    ∧ (OFrame.mk "" (OContent.text "hi") [] [] "").content.truthy = true
    ∧ ∃ A B,
      oRun true true
          ((([⟨"r", OContent.absent, [], [], ""⟩] : List OFrame).map OLine.frame
            ++ OLine.frame ⟨"", OContent.text "hi", [], [], ""⟩ :: []) :: [])
          TermMode.normal =
        A ++ Event.reasoningComplete
          :: Event.contentDelta "hi" "hi" :: B
      ∧ (∀ e ∈ A, e.isReasoningComplete = false ∧ e.isContentDelta = false)
      ∧ (∀ e ∈ B, e.isReasoningComplete = false) :=
  ⟨by decide, by decide, by decide,
    C2_amended_reasoning_complete_before_first_content
      [⟨"r", OContent.absent, [], [], ""⟩] ⟨"", OContent.text "hi", [], [], ""⟩
      [] [] (by decide) (by decide) (by decide)⟩

/-! ## Cancellation (C7) -/

/-- A non-terminal event is not an error. -/
theorem event_not_terminal_not_error {e : Event} (h : e.isTerminal = false) :
    e.isError = false := by
  cases e <;> simp_all [Event.isTerminal, Event.isCompletion, Event.isError]

/-- The post-loop events of the two cancellation paths never include an
error. -/
theorem oFinal_abort_no_error (st : AccState) :
    (∀ e ∈ oFinal true true st TermMode.flagAbort, e.isError = false)
    ∧ (∀ e ∈ oFinal true true st TermMode.abortError, e.isError = false) := by
  constructor <;>
    · simp only [oFinal]
      intro e he
      (repeat' split at he) <;> cases e <;> simp_all [Event.isError]

/-- **C7 (counterexample).** The claim requires every cancelled session
with pending reasoning to first fire the synthetic
`onReasoningChunk("", fullReasoning)`.  When cancellation is observed
via the abort-flag check (`break` out of the read loop, source lines
`if (abortSignal?.aborted) break`), the adapter runs the normal
try-tail instead of the `AbortError` catch: it fires only
`onReasoningComplete` and `onComplete`, and the synthetic empty
reasoning delta never happens. -/
theorem C7_cancellation_counterexample :
    oRun true true [[OLine.frame ⟨"r", OContent.absent, [], [], ""⟩]] TermMode.flagAbort =
      [Event.reasoningDelta "r" "r", Event.reasoningComplete, Event.completion ""]
    ∧ Event.reasoningDelta "" "r" ∉
      oRun true true [[OLine.frame ⟨"r", OContent.absent, [], [], ""⟩]] TermMode.flagAbort := by
  refine ⟨rfl, ?_⟩
  decide

/-- **C7 (amended).** A cancelled session never ends via `onError`, on
either cancellation path.  When cancellation surfaces as an
`AbortError` thrown by the transport and reasoning had accumulated
without being marked complete, the adapter fires the synthetic
`onReasoningChunk("", fullReasoning)`, then `onReasoningComplete`, then
`onComplete` with the accumulated content (possibly `""`).  When the
abort flag is observed at a loop check instead, the adapter fires
`onReasoningComplete` (without the synthetic reasoning delta) and then
`onComplete` with the accumulated content. -/
theorem C7_amended_cancellation_completes (chunks : List (List OLine)) :
    (∀ e ∈ oRun true true chunks TermMode.flagAbort, e.isError = false)
    ∧ (∀ e ∈ oRun true true chunks TermMode.abortError, e.isError = false)
    ∧ ((oChunks true true accInit chunks).1.reasoning ≠ "" →
      (oChunks true true accInit chunks).1.reasoningDone = false →
      oRun true true chunks TermMode.abortError =
        (oChunks true true accInit chunks).2
          ++ [Event.reasoningDelta "" (oChunks true true accInit chunks).1.reasoning,
              Event.reasoningComplete,
              Event.completion (oChunks true true accInit chunks).1.content]
      ∧ oRun true true chunks TermMode.flagAbort =
        (oChunks true true accInit chunks).2
          ++ [Event.reasoningComplete,
              Event.completion (oChunks true true accInit chunks).1.content]) := by
  refine ⟨?_, ?_, ?_⟩
  · intro e he
    simp only [oRun] at he
    rcases List.mem_append.1 he with hm | hm
    · exact event_not_terminal_not_error (oChunks_not_terminal true true chunks accInit e hm)
    · exact (oFinal_abort_no_error _).1 e hm
  · intro e he
    simp only [oRun] at he
    rcases List.mem_append.1 he with hm | hm
    · exact event_not_terminal_not_error (oChunks_not_terminal true true chunks accInit e hm)
    · exact (oFinal_abort_no_error _).2 e hm
  · intro h1 h2
    constructor <;> simp [oRun, oFinal, h1, h2]

/-- Witness for the amended C7 with one pending reasoning frame. -/
theorem C7_amended_cancellation_completes_witness :
    (∀ e ∈ oRun true true [[OLine.frame ⟨"r", OContent.absent, [], [], ""⟩]] TermMode.flagAbort,
      e.isError = false)
    ∧ (oChunks true true accInit [[OLine.frame ⟨"r", OContent.absent, [], [], ""⟩]]).1.reasoning ≠ ""
    ∧ oRun true true [[OLine.frame ⟨"r", OContent.absent, [], [], ""⟩]] TermMode.abortError =
        (oChunks true true accInit [[OLine.frame ⟨"r", OContent.absent, [], [], ""⟩]]).2
          ++ [Event.reasoningDelta ""
                (oChunks true true accInit [[OLine.frame ⟨"r", OContent.absent, [], [], ""⟩]]).1.reasoning,
              Event.reasoningComplete,
              Event.completion
                (oChunks true true accInit [[OLine.frame ⟨"r", OContent.absent, [], [], ""⟩]]).1.content] :=
  ⟨(C7_amended_cancellation_completes [[OLine.frame ⟨"r", OContent.absent, [], [], ""⟩]]).1,
    by decide,
    ((C7_amended_cancellation_completes [[OLine.frame ⟨"r", OContent.absent, [], [], ""⟩]]).2.2
      (by decide) (by decide)).1⟩

/-! ## Anthropic thinking deltas without a reasoning callback (C10) -/

/-- **C10.** In the Anthropic adapter, when the caller supplies no
`onReasoningChunk` callback, every `text_delta` arriving inside a
content block whose recorded type is `thinking` is appended to the
content buffer and delivered through `onChunk`, and is therefore
included in the final `onComplete` text — it is neither routed to the
reasoning channel nor dropped: the trace is exactly the plain content
trace of the thinking deltas. -/
theorem C10_thinking_text_routed_to_content (hrd : Bool) (ts : List String)
    (h : ∀ t ∈ ts, t ≠ "") :
    aRun false hrd
        [ALine.frame (AFrame.blockStart "thinking")
          :: (ts.map (fun t => ALine.frame (AFrame.blockDelta "text_delta" t))
            ++ [ALine.frame AFrame.blockStop, ALine.frame AFrame.messageStop])]
        TermMode.normal =
      contentTrace "" ts ++ [Event.completion (concatStr ts)] := by
  have hone : ∀ st : AnthState, st.reasoning = "" →
      aLines false hrd st [ALine.frame AFrame.blockStop, ALine.frame AFrame.messageStop] =
        ({ st with blockType := "" }, [], false) := by
    intro st hr
    simp [aLines, aLineStep, aFrameStep, hr]
  have hpre := aLines_content_run false hrd ts
    [ALine.frame AFrame.blockStop, ALine.frame AFrame.messageStop]
    (⟨"", "", false, "thinking"⟩ : AnthState) h rfl (by simp)
  simp only [aRun, aChunks, aLines, aLineStep, aFrameStep, aInit]
  rw [hpre, hone _ rfl]
  simp [aFinal]

/-- Witness for C10 with two thinking deltas. -/
theorem C10_thinking_text_routed_to_content_witness :
    (∀ t ∈ (["T1", "T2"] : List String), t ≠ "")
    ∧ aRun false true
        [ALine.frame (AFrame.blockStart "thinking")
          :: ((["T1", "T2"] : List String).map
              (fun t => ALine.frame (AFrame.blockDelta "text_delta" t))
            ++ [ALine.frame AFrame.blockStop, ALine.frame AFrame.messageStop])]
        TermMode.normal =
      contentTrace "" ["T1", "T2"] ++ [Event.completion (concatStr ["T1", "T2"])] :=
  ⟨by decide, C10_thinking_text_routed_to_content true ["T1", "T2"] (by decide)⟩

/-! ## Gemini part routing (C6) -/

/-- `gParts` over an append composes. -/
theorem gParts_append (hrc hrd : Bool) (xs ys : List GPart) :
    ∀ st, gParts hrc hrd st (xs ++ ys) =
      ((gParts hrc hrd (gParts hrc hrd st xs).1 ys).1,
        (gParts hrc hrd st xs).2 ++ (gParts hrc hrd (gParts hrc hrd st xs).1 ys).2) := by
  induction xs with
  | nil => intro st; simp [gParts]
  | cons x xs ih =>
    intro st
    simp only [List.cons_append, gParts, List.append_eq]
    rw [ih]
    simp [List.append_assoc]

/-- A Gemini chunk of parsed frames behaves exactly like the
concatenation of all their candidate parts (the `finishReason` and the
swallowed `error` field are no-ops). -/
theorem gLines_frames_eq_parts (hrc hrd : Bool) (fs : List GFrame) :
    ∀ st, gLines hrc hrd st (fs.map GLine.frame) =
      gParts hrc hrd st ((fs.map GFrame.parts).flatten) := by
  induction fs with
  | nil => intro st; simp [gLines, gParts]
  | cons f fs ih =>
    intro st
    simp only [List.map_cons, gLines, gLineStep, List.flatten_cons, ih,
      gParts_append]

/-- Per-part counts of `ReasoningDelta` / `ContentDelta` events (both
reasoning callbacks supplied). -/
theorem gPartStep_counts (st : AccState) (p : GPart) :
    ((gPartStep true true st p).2).countP Event.isReasoningDelta =
      (if p.thought ≠ "" then 1 else 0)
    ∧ ((gPartStep true true st p).2).countP Event.isContentDelta =
      (if p.thought = "" ∧ p.text ≠ "" then 1 else 0) := by
  simp only [gPartStep]
  (repeat' split) <;>
    simp_all [List.countP_append, List.countP_cons, Event.isReasoningDelta,
      Event.isContentDelta]

/-- Whole-list counts of `ReasoningDelta` / `ContentDelta` events. -/
theorem gParts_counts (ps : List GPart) :
    ∀ st, ((gParts true true st ps).2).countP Event.isReasoningDelta =
      ps.countP (fun p => decide (p.thought ≠ ""))
    ∧ ((gParts true true st ps).2).countP Event.isContentDelta =
      ps.countP (fun p => decide (p.thought = "" ∧ p.text ≠ "")) := by
  induction ps with
  | nil => intro st; simp [gParts]
  | cons p ps ih =>
    intro st
    simp only [gParts, List.countP_append, List.countP_cons,
      (gPartStep_counts st p).1, (gPartStep_counts st p).2,
      (ih (gPartStep true true st p).1).1, (ih (gPartStep true true st p).1).2]
    constructor <;> (repeat' split) <;> simp_all <;> omega

/-- The normal-termination finalization fires neither `ReasoningDelta`
nor `ContentDelta` events. -/
theorem gFinal_normal_no_deltas (st : AccState) :
    (gFinal true true st TermMode.normal).countP Event.isReasoningDelta = 0
    ∧ (gFinal true true st TermMode.normal).countP Event.isContentDelta = 0 := by
  simp only [gFinal]
  (repeat' split) <;>
    simp [List.countP_append, List.countP_cons, Event.isReasoningDelta,
      Event.isContentDelta]

/-- A part that is not content-emitting (truthy `thought`, or no text)
only accumulates (and reports) reasoning. -/
theorem gPartStep_noContent (st : AccState) (p : GPart)
    (h : p.thought ≠ "" ∨ p.text = "") :
    gPartStep true true st p =
      ({ st with reasoning := st.reasoning ++ p.thought },
        if p.thought ≠ "" then
          [Event.reasoningDelta p.thought (st.reasoning ++ p.thought)]
        else []) := by
  by_cases ht : p.thought = ""
  · have htx : p.text = "" := h.resolve_left (by simp [ht])
    simp [gPartStep, ht, htx]
  · simp [gPartStep, ht]

/-- Processing a run of non-content-emitting parts followed by
arbitrary further parts. -/
theorem gParts_noContent_run (as rest : List GPart) :
    ∀ st, (∀ p ∈ as, p.thought ≠ "" ∨ p.text = "") →
    gParts true true st (as ++ rest) =
      ((gParts true true
          { st with reasoning := st.reasoning ++ concatStr (as.map GPart.thought) }
          rest).1,
        reasoningTrace st.reasoning (as.map GPart.thought)
          ++ (gParts true true
              { st with reasoning := st.reasoning ++ concatStr (as.map GPart.thought) }
              rest).2) := by
  induction as with
  | nil =>
    intro st _
    simp [concatStr, reasoningTrace]
  | cons p as ih =>
    intro st h
    rw [List.cons_append]
    simp only [gParts, gPartStep_noContent st p (h p (by simp))]
    rw [ih { st with reasoning := st.reasoning ++ p.thought }
      (fun x hx => h x (by simp [hx]))]
    simp [List.map_cons, reasoningTrace, concatStr, String.append_assoc]

/-- The first content-emitting part reached with non-empty accumulated
reasoning and the done flag unset fires `onReasoningComplete`
immediately followed by `onChunk`, and sets the done flag. -/
theorem gPartStep_first_content (st : AccState) (c : GPart)
    (ht : c.thought = "") (hx : c.text ≠ "")
    (hr : st.reasoning ≠ "") (hd : st.reasoningDone = false) :
    gPartStep true true st c =
      (⟨st.content ++ c.text, st.reasoning, true⟩,
        [Event.reasoningComplete,
          Event.contentDelta c.text (st.content ++ c.text)]) := by
  simp [gPartStep, ht, hx, hr, hd]

/-- Once the done flag is set, a part step never fires
`onReasoningComplete` again and never clears the flag. -/
theorem gPartStep_done_no_rc (st : AccState) (p : GPart)
    (h : st.reasoningDone = true) :
    (∀ e ∈ (gPartStep true true st p).2, e.isReasoningComplete = false)
    ∧ (gPartStep true true st p).1.reasoningDone = true := by
  simp only [gPartStep]
  (repeat' split) <;> simp_all [Event.isReasoningComplete]

/-- Once the done flag is set, the rest of the part loop never fires
`onReasoningComplete` and never clears the flag. -/
theorem gParts_done_no_rc (ps : List GPart) :
    ∀ st, st.reasoningDone = true →
    (∀ e ∈ (gParts true true st ps).2, e.isReasoningComplete = false)
    ∧ (gParts true true st ps).1.reasoningDone = true := by
  induction ps with
  | nil => simp [gParts]
  | cons p ps ih =>
    intro st h
    simp only [gParts]
    refine ⟨?_, (ih _ (gPartStep_done_no_rc st p h).2).2⟩
    intro e he
    rcases List.mem_append.1 he with hm | hm
    · exact (gPartStep_done_no_rc st p h).1 e hm
    · exact (ih _ (gPartStep_done_no_rc st p h).2).1 e hm

/-- After the done flag is set, the Gemini normal finalization fires no
further `onReasoningComplete`. -/
theorem gFinal_done_no_rc (st : AccState) (h : st.reasoningDone = true) :
    ∀ e ∈ gFinal true true st TermMode.normal, e.isReasoningComplete = false := by
  simp [gFinal, h, Event.isReasoningComplete]

/-- **C6 (counterexample).** A Gemini candidate part carrying both a
`thought` field and a `text` field (with both reasoning callbacks
supplied): the adapter's `if (part.thought && onReasoningChunk) ... else
if (part.text)` chain routes it to the reasoning channel only, so the
part's `text` never produces an `onChunk` invocation — refuting "every
part carrying `text` results in an onChunk (ContentDelta) invocation". -/
theorem C6_part_with_thought_and_text_counterexample :
    gRun true true [[GLine.frame ⟨[⟨"t", "x"⟩], "", none⟩]] TermMode.normal =
      [Event.reasoningDelta "t" "t", Event.reasoningComplete, Event.completion ""]
    ∧ (gRun true true [[GLine.frame ⟨[⟨"t", "x"⟩], "", none⟩]]
        TermMode.normal).countP Event.isContentDelta = 0 := by
  refine ⟨rfl, ?_⟩
  decide

/-- **C6 (amended).** For a Gemini streaming session (both reasoning
callbacks supplied), every decoded candidate part with a truthy
`thought` field yields exactly one `onReasoningChunk` invocation, and
every part with a truthy `text` field *and no truthy thought field*
yields exactly one `onChunk` invocation (a part carrying both is routed
to the reasoning channel only); and when some thought-carrying part
precedes the first content-emitting part, `onReasoningComplete` fires
exactly once, immediately before that first `onChunk`. -/
theorem C6_amended_gemini_part_routing (fs : List GFrame) :
    ((gRun true true [fs.map GLine.frame] TermMode.normal).countP
        Event.isReasoningDelta =
      ((fs.map GFrame.parts).flatten).countP (fun p => decide (p.thought ≠ ""))
      ∧ (gRun true true [fs.map GLine.frame] TermMode.normal).countP
        Event.isContentDelta =
      ((fs.map GFrame.parts).flatten).countP
        (fun p => decide (p.thought = "" ∧ p.text ≠ "")))
    ∧ (∀ as c bs, (fs.map GFrame.parts).flatten = as ++ c :: bs →
        (∀ p ∈ as, p.thought ≠ "" ∨ p.text = "") →
        (∃ p ∈ as, p.thought ≠ "") →
        c.thought = "" → c.text ≠ "" →
        ∃ A B,
          gRun true true [fs.map GLine.frame] TermMode.normal =
            A ++ Event.reasoningComplete :: Event.contentDelta c.text c.text :: B
          ∧ (∀ e ∈ A, e.isReasoningComplete = false ∧ e.isContentDelta = false)
          ∧ (∀ e ∈ B, e.isReasoningComplete = false)) := by
  constructor
  · constructor
    · simp only [gRun, gChunks, gLines_frames_eq_parts, List.countP_append,
        List.append_nil]
      rw [(gParts_counts _ accInit).1, (gFinal_normal_no_deltas _).1]
      omega
    · simp only [gRun, gChunks, gLines_frames_eq_parts, List.countP_append,
        List.append_nil]
      rw [(gParts_counts _ accInit).2, (gFinal_normal_no_deltas _).2]
      omega
  · intro as c bs hsplit has hsome ht hx
    obtain ⟨p0, hp0, hp0t⟩ := hsome
    have hcat : concatStr (as.map GPart.thought) ≠ "" :=
      concatStr_ne_empty_of_mem _ _ (List.mem_map_of_mem _ hp0) hp0t
    have hr1 : ({ accInit with
        reasoning := accInit.reasoning ++ concatStr (as.map GPart.thought) } :
        AccState).reasoning ≠ "" := by
      simpa [accInit] using hcat
    have heq : gRun true true [fs.map GLine.frame] TermMode.normal =
        reasoningTrace "" (as.map GPart.thought)
          ++ Event.reasoningComplete :: Event.contentDelta c.text c.text
          :: ((gParts true true ⟨c.text, concatStr (as.map GPart.thought), true⟩ bs).2
            ++ gFinal true true
                (gParts true true
                  ⟨c.text, concatStr (as.map GPart.thought), true⟩ bs).1
                TermMode.normal) := by
      simp only [gRun, gChunks, gLines_frames_eq_parts, hsplit]
      rw [gParts_noContent_run as (c :: bs) accInit has]
      simp only [gParts]
      rw [gPartStep_first_content _ c ht hx hr1 rfl]
      simp [accInit, List.append_assoc]
    refine ⟨_, _, heq, ?_, ?_⟩
    · intro e he
      have hrd := reasoningTrace_events _ _ e he
      cases e <;> simp_all [Event.isReasoningDelta, Event.isReasoningComplete,
        Event.isContentDelta]
    · intro e he
      have hbs := gParts_done_no_rc bs
        ⟨c.text, concatStr (as.map GPart.thought), true⟩ rfl
      rcases List.mem_append.1 he with hm | hm
      · exact hbs.1 e hm
      · exact gFinal_done_no_rc _ hbs.2 e hm

/-- Witness for the amended C6: one frame with a thought part `"t"`
followed by a text part `"x"`. -/
theorem C6_amended_gemini_part_routing_witness :
    ((gRun true true
        [([⟨[⟨"t", ""⟩, ⟨"", "x"⟩], "", none⟩] : List GFrame).map GLine.frame]
        TermMode.normal).countP Event.isReasoningDelta =
      ((([⟨[⟨"t", ""⟩, ⟨"", "x"⟩], "", none⟩] : List GFrame).map
          GFrame.parts).flatten).countP (fun p => decide (p.thought ≠ "")))
    ∧ ∃ A B,
        gRun true true
            [([⟨[⟨"t", ""⟩, ⟨"", "x"⟩], "", none⟩] : List GFrame).map GLine.frame]
            TermMode.normal =
          A ++ Event.reasoningComplete :: Event.contentDelta "x" "x" :: B
        ∧ (∀ e ∈ A, e.isReasoningComplete = false ∧ e.isContentDelta = false)
        ∧ (∀ e ∈ B, e.isReasoningComplete = false) :=
  ⟨(C6_amended_gemini_part_routing [⟨[⟨"t", ""⟩, ⟨"", "x"⟩], "", none⟩]).1.1,
    (C6_amended_gemini_part_routing [⟨[⟨"t", ""⟩, ⟨"", "x"⟩], "", none⟩]).2
      [⟨"t", ""⟩] ⟨"", "x"⟩ [] (by decide) (by decide) (by decide) rfl (by decide)⟩

/-! ## Frame decoder (C8)

The decoder loop of every adapter is
`buffer += decodedChunk; const lines = buffer.split('\n');
buffer = lines.pop() || ''` with the popped (possibly incomplete) final
fragment retained for the next call.  Text is modelled as `List Char`
(the decoded text of the transport bytes); `splitBuf` computes in one
pass the pair (complete lines, trailing fragment) of JavaScript's
`split('\n')` followed by `pop()`. -/

/-- `splitBuf s = (ls, r)` iff `s.split('\n') = ls ++ [r]`: `ls` are the
complete (newline-terminated) lines and `r` the trailing fragment. -/
def splitBuf : List Char → List (List Char) × List Char
  | [] => ([], [])
  | c :: cs =>
    let p := splitBuf cs
    if c = '\n' then ([] :: p.1, p.2)
    else
      match p.1 with
      | [] => ([], c :: p.2)
      | l :: ls => ((c :: l) :: ls, p.2)

/-- JavaScript's `buffer.split('\n')`: all segments, the last being the
(possibly empty) trailing fragment. -/
def splitLines (s : List Char) : List (List Char) :=
  (splitBuf s).1 ++ [(splitBuf s).2]

/-- One decoder call: append the chunk to the buffer, split on newline,
pop the trailing fragment back into the buffer, emit the complete
lines.  Returns (new buffer, emitted lines). -/
def feedChunk (buf chunk : List Char) : List Char × List (List Char) :=
  let lines := splitLines (buf ++ chunk)
  (lines.getLastD [], lines.dropLast)

/-- Feeding a sequence of chunks through the decoder, accumulating the
emitted lines. -/
def feedAll : List Char × List (List Char) → List (List Char) → List Char × List (List Char)
  | acc, [] => acc
  | acc, ch :: chs =>
    let r := feedChunk acc.1 ch
    feedAll (r.1, acc.2 ++ r.2) chs

/-- `feedChunk` in terms of `splitBuf`. -/
theorem feedChunk_eq (buf chunk : List Char) :
    feedChunk buf chunk =
      ((splitBuf (buf ++ chunk)).2, (splitBuf (buf ++ chunk)).1) := by
  simp [feedChunk, splitLines]

/-- The retained fragment never contains a newline. -/
theorem splitBuf_no_newline (s : List Char) : '\n' ∉ (splitBuf s).2 := by
  induction s with
  | nil => simp [splitBuf]
  | cons c cs ih =>
    simp only [splitBuf]
    split
    · simpa using ih
    · split <;> rename_i heq
      · intro hmem
        rcases List.mem_cons.1 hmem with rfl | hm
        · simp_all
        · exact ih hm
      · simpa [heq] using ih

/-- A newline-free buffer splits to itself. -/
theorem splitBuf_of_no_newline (s : List Char) (h : '\n' ∉ s) :
    splitBuf s = ([], s) := by
  induction s with
  | nil => simp [splitBuf]
  | cons c cs ih =>
    have hc : ¬(c = '\n') := by
      intro hc; exact h (by simp [hc])
    have hcs : '\n' ∉ cs := fun hm => h (by simp [hm])
    simp only [splitBuf, ih hcs, if_neg hc]

/-- Splitting a concatenation: the complete lines of `a`, then the
split of `a`'s trailing fragment glued onto `b`. -/
theorem splitBuf_append (a : List Char) :
    ∀ b, splitBuf (a ++ b) =
      ((splitBuf a).1 ++ (splitBuf ((splitBuf a).2 ++ b)).1,
        (splitBuf ((splitBuf a).2 ++ b)).2) := by
  induction a with
  | nil => intro b; simp [splitBuf]
  | cons c a ih =>
    intro b
    simp only [List.cons_append, splitBuf, ih]
    by_cases hc : c = '\n'
    · simp [hc, ih]
    · simp only [if_neg hc]
      cases ha : (splitBuf a).1 with
      | nil =>
        simp only [ha, List.nil_append]
        cases hq : (splitBuf ((splitBuf a).2 ++ b)).1 with
        | nil => simp [ih, splitBuf, if_neg hc, ha, hq, List.cons_append]
        | cons l ls => simp [ih, splitBuf, if_neg hc, ha, hq, List.cons_append]
      | cons l ls =>
        simp [ih, splitBuf, if_neg hc, ha, List.cons_append]

/-- Feeding chunks one by one, starting from a newline-free buffer,
equals one split of the whole concatenation. -/
theorem feedAll_eq (chunks : List (List Char)) :
    ∀ buf out, '\n' ∉ buf →
    feedAll (buf, out) chunks =
      ((splitBuf (buf ++ chunks.flatten)).2,
        out ++ (splitBuf (buf ++ chunks.flatten)).1) := by
  induction chunks with
  | nil =>
    intro buf out hbuf
    simp [feedAll, splitBuf_of_no_newline buf hbuf]
  | cons ch chs ih =>
    intro buf out hbuf
    simp only [feedAll, feedChunk_eq]
    rw [ih _ _ (splitBuf_no_newline (buf ++ ch))]
    have := splitBuf_append (buf ++ ch) chs.flatten
    rw [List.flatten_cons, show buf ++ (ch ++ chs.flatten) = (buf ++ ch) ++ chs.flatten
      by simp [List.append_assoc], this]
    simp [List.append_assoc]

/-- **C8.** The frame decoder is chunk-boundary invariant: for every
payload text and every way of splitting it into a sequence of chunks,
feeding the chunks sequentially through the buffer-and-split-on-newline
loop yields exactly the same ordered sequence of complete lines, and
the same retained trailing fragment, as feeding the entire payload as
one chunk. -/
theorem C8_decoder_chunk_boundary_invariant (chunks : List (List Char)) :
    feedAll ([], []) chunks = feedChunk [] chunks.flatten := by
  rw [feedAll_eq chunks [] [] (by simp), feedChunk_eq]
  simp
